import Mathlib

/- Verification of the core of generate-project.py: the directive parser
   (parse_operations), the unified-diff parser (parse_unified_diff), the
   patch engine (apply_patch) and the operation executor's delete loop.

   Modelling conventions for the shallow embedding:
   * Python strings are lists of characters (`Str`).
   * Python floats (similarity scores, fuzzy thresholds) are exact
     rationals; difflib's 2*M/T ratio is represented with `mkRat`.
   * The filesystem is a finite list of (path, kind) entries.
   * `os` path functions follow their POSIX semantics (os.sep = '/'),
     which is also what the repository's path-safety tests assume. -/

abbrev Str : Type := List Char

/-- Characters treated as line boundaries by Python str.splitlines. -/
def isLineBreak (c : Char) : Bool :=
  c == '\n' || c == '\r' || c == '\x0b' || c == '\x0c' ||
  c == '\x1c' || c == '\x1d' || c == '\x1e' || c == '\x85' ||
  c == '\u2028' || c == '\u2029'

/-- Worker for Python str.splitlines(keepends=True): `acc` holds the
characters of the current line in reverse; a CR directly followed by LF is
one terminator.  (A final lone CR closes its line; the recursion inlines
the empty-remainder result there to stay structural.) -/
def splitKeepGo (acc : Str) : Str → List Str
  | [] => if acc.isEmpty then [] else [acc.reverse]
  | c :: rest =>
    if c = '\r' then
      match rest with
      | [] => [acc.reverse ++ [c]]
      | d :: rest2 =>
        if d = '\n' then (acc.reverse ++ ['\r', '\n']) :: splitKeepGo [] rest2
        else (acc.reverse ++ [c]) :: splitKeepGo [] (d :: rest2)
    else if isLineBreak c then (acc.reverse ++ [c]) :: splitKeepGo [] rest
    else splitKeepGo (c :: acc) rest

/-- Worker for Python str.splitlines() (terminators dropped). -/
def splitDropGo (acc : Str) : Str → List Str
  | [] => if acc.isEmpty then [] else [acc.reverse]
  | c :: rest =>
    if c = '\r' then
      match rest with
      | [] => [acc.reverse]
      | d :: rest2 =>
        if d = '\n' then acc.reverse :: splitDropGo [] rest2
        else acc.reverse :: splitDropGo [] (d :: rest2)
    else if isLineBreak c then acc.reverse :: splitDropGo [] rest
    else splitDropGo (c :: acc) rest

/-- Python s.splitlines(True). -/
def pySplitlinesKeep (s : Str) : List Str := splitKeepGo [] s

/-- Python s.splitlines(). -/
def pySplitlinesDrop (s : Str) : List Str := splitDropGo [] s

/-- Concatenation of a list of lines ("".join(lines)). -/
def joinAll (ls : List Str) : Str := ls.flatten

/-- Python "\n".join(lines). -/
def joinNL : List Str → Str
  | [] => []
  | [l] => l
  | l :: l2 :: rest => l ++ '\n' :: joinNL (l2 :: rest)

/-- Number of non-overlapping occurrences of "\r\n" (Python text.count("\r\n")). -/
def countCRLF : Str → Nat
  | [] => 0
  | c :: rest =>
    match rest with
    | [] => 0
    | d :: rest2 =>
      if c = '\r' ∧ d = '\n' then countCRLF rest2 + 1 else countCRLF (d :: rest2)

/-- The file_eol helper of apply_patch: dominant EOL of the original file,
CRLF only when strictly more CRLF than bare LF occurrences. -/
def file_eol (s : Str) : Str :=
  let crlf := countCRLF s
  let lf := s.count '\n' - crlf
  if crlf > lf then ['\r', '\n'] else ['\n']

/-- Python line.rstrip('\r\n'): remove all trailing CR and LF characters. -/
def pyRstripRN (s : Str) : Str :=
  (s.reverse.dropWhile (fun c => c == '\r' || c == '\n')).reverse

/-- The norm helper of apply_patch (EOL-insensitive comparison form). -/
def normLine (ign : Bool) (l : Str) : Str := if ign then pyRstripRN l else l

/-- Python s.startswith(p). -/
def startsW (p s : Str) : Bool := p.isPrefixOf s

/-- Python str.isspace members relevant to str.strip() (ASCII whitespace). -/
def pyIsSpace (c : Char) : Bool :=
  c == ' ' || c == '\t' || c == '\n' || c == '\r' || c == '\x0b' || c == '\x0c'

/-- Python s.strip(). -/
def pyStrip (s : Str) : Str :=
  ((s.dropWhile pyIsSpace).reverse.dropWhile pyIsSpace).reverse

/-- Python l.endswith(('\n', '\r\n')). -/
def endsNL (l : Str) : Bool :=
  (['\n'] : Str).isSuffixOf l || (['\r', '\n'] : Str).isSuffixOf l

/-- Consume an exact literal from the front of a string. -/
def eatLit (lit s : Str) : Option Str :=
  if lit.isPrefixOf s then some (s.drop lit.length) else none

/-- Numeric value of a digit string. -/
def natOfDigits (ds : Str) : Nat :=
  ds.foldl (fun n c => n * 10 + (c.toNat - ('0').toNat)) 0

/-- Consume a maximal nonempty run of digits (regex \d+). -/
def eatDigits (s : Str) : Option (Nat × Str) :=
  let ds := s.takeWhile Char.isDigit
  if ds.isEmpty then none else some (natOfDigits ds, s.drop ds.length)

/-- Consume the optional (?:,(\d+))? part of the hunk-header regex: if a
comma is present it must be followed by digits for the header to match. -/
def eatOptCommaDigits : Str → Option Str
  | [] => some []
  | c :: rest =>
    if c = ',' then (eatDigits rest).map (fun p => p.2) else some (c :: rest)

/-- HUNK_HEADER_RE: `@@ -(\d+)(?:,(\d+))? \+(\d+)(?:,(\d+))? @@.*`; only
group 1 (old_start) is used by apply_patch. -/
def parseHunkHeader (line : Str) : Option Nat := do
  let r1 ← eatLit ("@@ -").data line
  let (oldStart, r2) ← eatDigits r1
  let r3 ← eatOptCommaDigits r2
  let r4 ← eatLit (" +").data r3
  let (_, r5) ← eatDigits r4
  let r6 ← eatOptCommaDigits r5
  let _ ← eatLit (" @@").data r6
  pure oldStart

/-- search_lines: context and removal lines of a hunk body, prefix stripped. -/
def hunkSearchLines (hunkLines : List Str) : List Str :=
  (hunkLines.filter (fun l => startsW ([' ']) l || startsW (['-']) l)).map (List.drop 1)

/-- insert_lines before EOL normalization: context and addition lines. -/
def hunkInsertRaw (hunkLines : List Str) : List Str :=
  (hunkLines.filter (fun l => startsW ([' ']) l || startsW (['+']) l)).map (List.drop 1)

/-- insert_lines with every line re-terminated by the file's dominant EOL. -/
def hunkInsertLines (hunkLines : List Str) (eol : Str) : List Str :=
  (hunkInsertRaw hunkLines).map (fun l => pyRstripRN l ++ eol)

/-- The needle built for the exact-match scan (apply_patch line 302):
each search line is rstripped of EOL characters and, unless it already ends
in a newline, re-terminated with the target EOL. -/
def exactNeedle (searchLines : List Str) (eol : Str) : List Str :=
  (searchLines.map pyRstripRN).map (fun l => if endsNL l then l else l ++ eol)

/-- The _lines_equal helper: windows compare equal when they have the same
length and corresponding lines agree after norm. -/
def linesEqualN (ign : Bool) : List Str → List Str → Bool
  | [], [] => true
  | x :: xs, y :: ys => normLine ign x == normLine ign y && linesEqualN ign xs ys
  | _, _ => false

/-- Scanning worker of _find_exact_window, current window index in `j`. -/
def findExactGo (ign : Bool) (needle : List Str) : Nat → List Str → Option Nat
  | j, [] => if needle.length = 0 then some j else none
  | j, l :: t =>
    if needle.length ≤ t.length + 1 then
      if linesEqualN ign ((l :: t).take needle.length) needle then some j
      else findExactGo ign needle (j + 1) t
    else none

/-- _find_exact_window: index of the first window of the haystack equal to
the needle after norm; none models Python's -1 result. -/
def findExactWindow (ign : Bool) (hay needle : List Str) : Option Nat :=
  findExactGo ign needle 0 hay

/- difflib.SequenceMatcher over lists of (normalized) lines.  b2j junk
handling is inactive here: no junk function is passed and autojunk only
fires for windows of 200 or more lines, beyond anything this development
evaluates, so the element-position map is used unfiltered. -/

/-- Positions of element x in b, in ascending order (difflib's b2j). -/
def b2jOf (b : List Str) (x : Str) : List Nat :=
  (b.enum.filter (fun p => p.2 == x)).map (fun p => p.1)

/-- One row of the find_longest_match dynamic program: `j2len` is the
previous row, `js` the admissible b-positions of a[i] in ascending order;
returns the new row and the updated (besti, bestj, bestk). -/
def flmRow (j2len : List (Nat × Nat)) (js : List Nat) (i : Nat)
    (best : Nat × Nat × Nat) : List (Nat × Nat) × (Nat × Nat × Nat) :=
  js.foldl
    (fun st j =>
      let k := (if j = 0 then 0 else (List.lookup (j - 1) j2len).getD 0) + 1
      let best' := if k > st.2.2.2 then (i + 1 - k, j + 1 - k, k) else st.2
      ((j, k) :: st.1, best'))
    ([], best)

/-- The dynamic-programming part of find_longest_match. -/
def flmDP (a b : List Str) (alo ahi blo bhi : Nat) : Nat × Nat × Nat :=
  let st := (List.range (ahi - alo)).foldl
    (fun (st : List (Nat × Nat) × (Nat × Nat × Nat)) d =>
      let i := alo + d
      let js := (b2jOf b (a.getD i ([]))).filter
        (fun j => decide (blo ≤ j) && decide (j < bhi))
      flmRow st.1 js i st.2)
    ([], (alo, blo, 0))
  st.2

/-- Extension of the best block downwards over equal elements
(find_longest_match's first while loop; the junk variants are inactive). -/
def extLow (a b : List Str) (alo blo : Nat) : Nat → Nat × Nat × Nat → Nat × Nat × Nat
  | 0, st => st
  | fuel + 1, (i, j, k) =>
    if alo < i ∧ blo < j ∧ a.getD (i - 1) ([]) == b.getD (j - 1) ([]) then
      extLow a b alo blo fuel (i - 1, j - 1, k + 1)
    else (i, j, k)

/-- Extension of the best block upwards over equal elements. -/
def extHigh (a b : List Str) (ahi bhi : Nat) : Nat → Nat × Nat × Nat → Nat × Nat × Nat
  | 0, st => st
  | fuel + 1, (i, j, k) =>
    if i + k < ahi ∧ j + k < bhi ∧ a.getD (i + k) ([]) == b.getD (j + k) ([]) then
      extHigh a b ahi bhi fuel (i, j, k + 1)
    else (i, j, k)

/-- difflib find_longest_match on a[alo:ahi] vs b[blo:bhi]. -/
def findLongestMatch (a b : List Str) (alo ahi blo bhi : Nat) : Nat × Nat × Nat :=
  let st := flmDP a b alo ahi blo bhi
  let st := extLow a b alo blo st.1 st
  extHigh a b ahi bhi ahi st

/-- Total size of all matching blocks (what .ratio() sums); the fuel bounds
the recursion depth of get_matching_blocks' divide and conquer, and any
value of at least alo+ahi+blo+bhi is enough. -/
def matchingTotal (a b : List Str) : Nat → Nat → Nat → Nat → Nat → Nat
  | 0, _, _, _, _ => 0
  | fuel + 1, alo, ahi, blo, bhi =>
    let t := findLongestMatch a b alo ahi blo bhi
    if t.2.2 = 0 then 0
    else
      matchingTotal a b fuel alo t.1 blo t.2.1 + t.2.2 +
        matchingTotal a b fuel (t.1 + t.2.2) ahi (t.2.1 + t.2.2) bhi

/-- difflib SequenceMatcher(a, b).ratio() = 2*M / (len(a)+len(b)), and 1.0
for two empty sequences, as an exact rational. -/
def smScore (a b : List Str) : ℚ :=
  let m := matchingTotal a b (a.length + b.length + 1) 0 a.length 0 b.length
  if a.length + b.length = 0 then 1 else mkRat (2 * m) (a.length + b.length)

/-- The fuzzy-fallback scan: best (strictly) scoring window of the buffer
against the normalized search lines; mirrors the best_score/best_idx loop,
so a window scoring 0 can never become the best one. -/
def fuzzyBest (ign : Bool) (buf searchLines : List Str) : ℚ × Option Nat :=
  let target := searchLines.map (normLine ign)
  if searchLines.length ≤ buf.length then
    (List.range (buf.length - searchLines.length + 1)).foldl
      (fun st j =>
        let window := ((buf.drop j).take searchLines.length).map (normLine ign)
        let score := smScore target window
        if score > st.1 then (score, some j) else st)
      ((0 : ℚ), none)
  else ((0 : ℚ), none)

/-- The ValueError message raised when a hunk cannot be placed. -/
def hunkMismatchMsg (idx : Nat) (hunkLines : List Str) : Str :=
  ("Hunk #").data ++ (Nat.repr (idx + 1)).data ++
    (" could not be applied. Content mismatch.\n-- Hunk Preview --\n").data ++
    joinAll (hunkLines.take 5) ++ ("[...]").data

/-- Python list[j:j+len] = ins slice assignment (with Python's clamping). -/
def spliceAt (buf : List Str) (j len : Nat) (ins : List Str) : List Str :=
  buf.take j ++ ins ++ buf.drop (j + len)

/-- The body of apply_patch's per-hunk loop (source lines 270-356): header
parse, pure insertion, exact window, already-applied check, fuzzy fallback,
error.  `idx` is the zero-based hunk index (used in the error message). -/
def applyHunk (ign : Bool) (eol : Str) (thr : Option ℚ) (allowAA : Bool)
    (idx : Nat) (buf : List Str) (hdr : Str) (body : List Str) :
    Except Str (List Str) :=
  match parseHunkHeader hdr with
  | none => .error (("Invalid hunk header: ").data ++ pyStrip hdr)
  | some oldStart =>
    let searchLines := hunkSearchLines body
    let insertLines := hunkInsertLines body eol
    if searchLines.isEmpty then
      let insertPos := if oldStart > 0 then oldStart - 1 else 0
      let buf1 :=
        if buf.isEmpty ∧ insertPos > 0 then buf ++ List.replicate insertPos eol else buf
      .ok (buf1.take insertPos ++ insertLines ++ buf1.drop insertPos)
    else
      match findExactWindow ign buf (exactNeedle searchLines eol) with
      | some j => .ok (spliceAt buf j searchLines.length insertLines)
      | none =>
        match (if allowAA then findExactWindow ign buf insertLines else none) with
        | some _ => .ok buf
        | none =>
          match thr with
          | some t =>
            let best := fuzzyBest ign buf searchLines
            match best.2 with
            | some j =>
              if best.1 ≥ t then .ok (spliceAt buf j searchLines.length insertLines)
              else .error (hunkMismatchMsg idx body)
            | none => .error (hunkMismatchMsg idx body)
          | none => .error (hunkMismatchMsg idx body)

/-- Body lines of a hunk: everything up to the next `@@ ` header line. -/
def takeHunkBody : List Str → List Str × List Str
  | [] => ([], [])
  | l :: ls =>
    if startsW ("@@ ").data l then ([], l :: ls)
    else
      let p := takeHunkBody ls
      (l :: p.1, p.2)

/-- Fuelled splitter of the diff lines into (header, body) hunks; the fuel
only bounds the recursion depth and the full line count is always enough,
since every step consumes at least one line. -/
def hunkSplitF : Nat → List Str → List (Str × List Str)
  | 0, _ => []
  | _ + 1, [] => []
  | fuel + 1, l :: ls =>
    if startsW ("@@ ").data l then
      let p := takeHunkBody ls
      (l, p.1) :: hunkSplitF fuel p.2
    else hunkSplitF fuel ls

/-- The hunks of a diff, as computed from hunk_starts in apply_patch. -/
def hunkSplit (lines : List Str) : List (Str × List Str) :=
  hunkSplitF lines.length lines

/-- Sequential application of the hunks to the line buffer, stopping at the
first failing hunk (the raised ValueError). -/
def applyHunksGo (ign : Bool) (eol : Str) (thr : Option ℚ) (allowAA : Bool) :
    Nat → List Str → List (Str × List Str) → Except Str (List Str)
  | _, buf, [] => .ok buf
  | idx, buf, h :: hs =>
    match applyHunk ign eol thr allowAA idx buf h.1 h.2 with
    | .error e => .error e
    | .ok buf2 => applyHunksGo ign eol thr allowAA (idx + 1) buf2 hs

/-- apply_patch(original_content, diff_text, ignore_eol, fuzzy_threshold,
allow_already_applied); a ValueError is modelled as .error. -/
def apply_patch (orig diff : Str) (ign : Bool) (thr : Option ℚ)
    (allowAA : Bool) : Except Str Str :=
  let originalLines := pySplitlinesKeep orig
  let eol := file_eol orig
  let hunks := hunkSplit (pySplitlinesKeep diff)
  match applyHunksGo ign eol thr allowAA 0 originalLines hunks with
  | .error e => .error e
  | .ok ls => .ok (joinAll ls)

/-- The default fuzzy threshold 0.88. -/
def defaultFuzzy : ℚ := mkRat 22 25

/- ------------------------------------------------------------------ -/
/- Basic lemmas about the splitlines embedding                         -/
/- ------------------------------------------------------------------ -/

theorem splitKeepGo_join_aux : ∀ (n : Nat) (s acc : Str), s.length ≤ n →
    joinAll (splitKeepGo acc s) = acc.reverse ++ s := by
  intro n
  induction n with
  | zero =>
    intro s acc h
    have hs : s = [] := List.eq_nil_of_length_eq_zero (Nat.le_zero.mp h)
    subst hs
    by_cases hacc : acc.isEmpty
    · simp [splitKeepGo, hacc, joinAll, List.isEmpty_iff.mp hacc]
    · simp [splitKeepGo, hacc, joinAll]
  | succ n ih =>
    intro s acc h
    cases s with
    | nil =>
      by_cases hacc : acc.isEmpty
      · simp [splitKeepGo, hacc, joinAll, List.isEmpty_iff.mp hacc]
      · simp [splitKeepGo, hacc, joinAll]
    | cons c rest =>
      simp only [List.length_cons] at h
      by_cases hc : c = '\r'
      · subst hc
        cases rest with
        | nil => simp [splitKeepGo, joinAll]
        | cons d rest2 =>
          by_cases hd : d = '\n'
          · subst hd
            have h2 := ih rest2 [] (by simp at h; omega)
            unfold splitKeepGo
            simp [joinAll] at h2 ⊢
            simp [h2]
          · have h2 := ih (d :: rest2) [] (by simp at h ⊢; omega)
            unfold splitKeepGo
            simp [hd, joinAll] at h2 ⊢
            simp [h2]
      · by_cases hb : isLineBreak c
        · have h2 := ih rest [] (by omega)
          unfold splitKeepGo
          simp [hc, hb, joinAll] at h2 ⊢
          simp [h2]
        · have h2 := ih rest (c :: acc) (by omega)
          unfold splitKeepGo
          simp [hc, hb, joinAll] at h2 ⊢
          simp [h2]

/-- Rebuilding the keepends split of a text gives back the text. -/
theorem pySplitlinesKeep_join (s : Str) : joinAll (pySplitlinesKeep s) = s := by
  simpa using splitKeepGo_join_aux s.length s [] (Nat.le_refl _)

/-- A diff whose lines never start with `@@ ` yields no hunks. -/
theorem hunkSplitF_nil : ∀ (fuel : Nat) (ls : List Str),
    (∀ l ∈ ls, startsW (("@@ ").data) l = false) → hunkSplitF fuel ls = [] := by
  intro fuel
  induction fuel with
  | zero => intro ls _; rfl
  | succ n ih =>
    intro ls h
    cases ls with
    | nil => rfl
    | cons l rest =>
      have hl := h l (by simp)
      unfold hunkSplitF
      simp only [hl, Bool.false_eq_true, if_false]
      exact ih rest (fun x hx => h x (by simp [hx]))

/- ------------------------------------------------------------------ -/
/- Claim theorems: patch-engine scenarios                              -/
/- ------------------------------------------------------------------ -/

/-- Claim C1: patching the three-LF-line original "a\nb\nc\n" with the
single hunk ` a` / `-b` / `+B` / ` c` produces exactly "a\nB\nc\n". -/
theorem apply_patch_three_line_scenario :
    apply_patch (("a\nb\nc\n").data) (("@@ -1,3 +1,3 @@\n a\n-b\n+B\n c\n").data)
      true (some defaultFuzzy) true = .ok (("a\nB\nc\n").data) := rfl

/-- Claim C10: a diff text without any `@@ ` hunk-header line leaves the
original content unchanged, byte for byte. -/
theorem apply_patch_no_hunks (orig diff : Str) (ign : Bool) (thr : Option ℚ)
    (allowAA : Bool)
    (h : ∀ l ∈ pySplitlinesKeep diff, startsW (("@@ ").data) l = false) :
    apply_patch orig diff ign thr allowAA = .ok orig := by
  have hs : hunkSplit (pySplitlinesKeep diff) = [] := hunkSplitF_nil _ _ h
  simp [apply_patch, hunkSplit] at hs ⊢
  simp [hs, applyHunksGo, pySplitlinesKeep_join]

/-- Witness for C10 at a concrete original and hunk-free diff. -/
theorem apply_patch_no_hunks_witness :
    apply_patch (("hello\nworld\n").data) (("--- a/f\n+++ b/f\njust notes\n").data)
      true (some defaultFuzzy) true = .ok (("hello\nworld\n").data) :=
  apply_patch_no_hunks _ _ _ _ _ (by decide)

/-- Counterexample to claim C2 as stated: a pure-addition hunk (empty
search block) bypasses the already-applied check, so the second
application of the same diff inserts the line again. -/
theorem apply_patch_not_idempotent_cex :
    apply_patch (("").data) (("@@ -0,0 +1 @@\n+x\n").data)
      true (some defaultFuzzy) true = .ok (("x\n").data) ∧
    apply_patch (("x\n").data) (("@@ -0,0 +1 @@\n+x\n").data)
      true (some defaultFuzzy) true = .ok (("x\nx\n").data) ∧
    (("x\nx\n").data : Str) ≠ ("x\n").data :=
  ⟨rfl, rfl, by decide⟩

/-- Counterexample to claim C7 as stated: a 2-line window differing from
the search block only in one line's trailing whitespace scores 1/2 < 0.88,
so the hunk raises the mismatch error even at the default threshold. -/
theorem apply_patch_fuzzy_short_window_cex :
    apply_patch (("a\nb \n").data) (("@@ -1,2 +1,2 @@\n a\n-b\n+B\n").data)
      true (some defaultFuzzy) true
      = .error (hunkMismatchMsg 0 (pySplitlinesKeep ((" a\n-b\n+B\n").data))) ∧
    (fuzzyBest true (pySplitlinesKeep (("a\nb \n").data))
        (hunkSearchLines (pySplitlinesKeep ((" a\n-b\n+B\n").data)))).1
      = mkRat 1 2 :=
  ⟨rfl, rfl⟩

/-- Claim C7 (amended): with a nine-line window that differs from the
search block only in one line's trailing whitespace, the similarity is
8/9 ≥ 0.88, so the hunk applies there at threshold 0.88; at threshold
0.99 the same input raises the hunk-mismatch error. -/
theorem apply_patch_fuzzy_nine_line_scenario :
    (fuzzyBest true (pySplitlinesKeep (("a\nb\nc\nd\ne\nf\ng\nh\ni \n").data))
        (hunkSearchLines
          (pySplitlinesKeep ((" a\n-b\n+B\n c\n d\n e\n f\n g\n h\n i\n").data)))).1
      = mkRat 8 9 ∧
    mkRat 22 25 ≤ mkRat 8 9 ∧
    apply_patch (("a\nb\nc\nd\ne\nf\ng\nh\ni \n").data)
      (("@@ -1,9 +1,9 @@\n a\n-b\n+B\n c\n d\n e\n f\n g\n h\n i\n").data)
      true (some (mkRat 22 25)) true
      = .ok (("a\nB\nc\nd\ne\nf\ng\nh\ni\n").data) ∧
    apply_patch (("a\nb\nc\nd\ne\nf\ng\nh\ni \n").data)
      (("@@ -1,9 +1,9 @@\n a\n-b\n+B\n c\n d\n e\n f\n g\n h\n i\n").data)
      true (some (mkRat 99 100)) true
      = .error (hunkMismatchMsg 0
          (pySplitlinesKeep ((" a\n-b\n+B\n c\n d\n e\n f\n g\n h\n i\n").data))) :=
  ⟨rfl, by decide, rfl, rfl⟩


/- ------------------------------------------------------------------ -/
/- Claim C4: the exact window is always preferred, at the first match  -/
/- ------------------------------------------------------------------ -/

/-- A window of the buffer at offset d matches the needle up to line
endings (the comparison _find_exact_window performs). -/
abbrev windowMatchesAt (ign : Bool) (hay needle : List Str) (d : Nat) : Prop :=
  linesEqualN ign ((hay.drop d).take needle.length) needle = true

/-- Norm-equal line lists have equal length. -/
theorem linesEqualN_length (ign : Bool) :
    ∀ (a b : List Str), linesEqualN ign a b = true → a.length = b.length := by
  intro a
  induction a with
  | nil => intro b h; cases b with
    | nil => rfl
    | cons y ys => simp [linesEqualN] at h
  | cons x xs ih =>
    intro b h
    cases b with
    | nil => simp [linesEqualN] at h
    | cons y ys =>
      simp only [linesEqualN, Bool.and_eq_true] at h
      simp [ih ys h.2]

/-- Soundness of the exact-window scan: a hit is a matching window and no
earlier offset matches. -/
theorem findExactGo_sound (ign : Bool) (needle : List Str) :
    ∀ (hay : List Str) (j r : Nat), findExactGo ign needle j hay = some r →
      ∃ d, r = j + d ∧ windowMatchesAt ign hay needle d ∧
        ∀ e < d, ¬ windowMatchesAt ign hay needle e := by
  intro hay
  induction hay with
  | nil =>
    intro j r h
    unfold findExactGo at h
    by_cases hl : needle.length = 0
    · simp [hl] at h
      refine ⟨0, by omega, ?_, by omega⟩
      have : needle = [] := List.eq_nil_of_length_eq_zero hl
      subst this
      simp [windowMatchesAt, linesEqualN]
    · simp [hl] at h
  | cons l t ih =>
    intro j r h
    unfold findExactGo at h
    by_cases hfit : needle.length ≤ t.length + 1
    · simp only [hfit, if_true] at h
      by_cases hhead : linesEqualN ign ((l :: t).take needle.length) needle = true
      · simp [hhead] at h
        exact ⟨0, by omega, by simpa [windowMatchesAt] using hhead, by omega⟩
      · simp [hhead] at h
        obtain ⟨d, hd, hm, hmin⟩ := ih (j + 1) r h
        refine ⟨d + 1, by omega, ?_, ?_⟩
        · simpa [windowMatchesAt] using hm
        · intro e he
          cases e with
          | zero => simpa [windowMatchesAt] using hhead
          | succ e' =>
            have := hmin e' (by omega)
            simpa [windowMatchesAt] using this
    · simp [hfit] at h

/-- Completeness of the exact-window scan: if some window matches, the
scan does not return none. -/
theorem findExactGo_complete (ign : Bool) (needle : List Str) :
    ∀ (hay : List Str) (j d : Nat), windowMatchesAt ign hay needle d →
      (findExactGo ign needle j hay).isSome := by
  intro hay
  induction hay with
  | nil =>
    intro j d h
    have hlen := linesEqualN_length ign _ _ h
    simp at hlen
    unfold findExactGo
    simp [← hlen]
  | cons l t ih =>
    intro j d h
    have hlen := linesEqualN_length ign _ _ h
    have hfit : needle.length ≤ t.length + 1 := by
      simp [List.length_take, List.length_drop] at hlen
      omega
    unfold findExactGo
    simp only [hfit, if_true]
    by_cases hhead : linesEqualN ign ((l :: t).take needle.length) needle = true
    · simp [hhead]
    · simp [hhead]
      cases d with
      | zero => exact absurd h hhead
      | succ d' =>
        have : windowMatchesAt ign t needle d' := by
          simpa [windowMatchesAt] using h
        simpa using ih (j + 1) d' this

/-- Claim C4: whenever a hunk's search lines occur (up to line endings) in
the current buffer, the hunk-application step replaces the first (lowest
offset) exactly matching window, for every fuzzy threshold — the fuzzy
path is never consulted.  With a unique occurrence, that occurrence is the
one replaced. -/
theorem applyHunk_exact_first (eol : Str) (thr : Option ℚ) (allowAA : Bool)
    (idx : Nat) (buf : List Str) (hdr : Str) (body : List Str) (os : Nat)
    (hhdr : parseHunkHeader hdr = some os)
    (hne : hunkSearchLines body ≠ [])
    (hex : ∃ d, windowMatchesAt true buf (exactNeedle (hunkSearchLines body) eol) d) :
    ∃ j, windowMatchesAt true buf (exactNeedle (hunkSearchLines body) eol) j ∧
      (∀ e < j, ¬ windowMatchesAt true buf (exactNeedle (hunkSearchLines body) eol) e) ∧
      applyHunk true eol thr allowAA idx buf hdr body =
        .ok (spliceAt buf j (hunkSearchLines body).length (hunkInsertLines body eol)) := by
  obtain ⟨d, hd⟩ := hex
  have hsome := findExactGo_complete true _ buf 0 d hd
  rw [Option.isSome_iff_exists] at hsome
  obtain ⟨r, hr⟩ := hsome
  obtain ⟨j, hj0, hjm, hjmin⟩ := findExactGo_sound true _ buf 0 r hr
  have hfw : findExactWindow true buf (exactNeedle (hunkSearchLines body) eol) = some j := by
    rw [findExactWindow, hr, hj0]
    simp
  refine ⟨j, hjm, hjmin, ?_⟩
  have hempty : (hunkSearchLines body).isEmpty = false := by
    simpa [List.isEmpty_iff] using hne
  unfold applyHunk
  rw [hhdr]
  simp [hempty, hfw]

/-- Witness for C4 on the three-line buffer. -/
theorem applyHunk_exact_first_witness :
    ∃ j, windowMatchesAt true (pySplitlinesKeep (("a\nb\nc\n").data))
        (exactNeedle (hunkSearchLines (pySplitlinesKeep ((" a\n-b\n+B\n c\n").data)))
          (("\n").data)) j ∧
      (∀ e < j, ¬ windowMatchesAt true (pySplitlinesKeep (("a\nb\nc\n").data))
        (exactNeedle (hunkSearchLines (pySplitlinesKeep ((" a\n-b\n+B\n c\n").data)))
          (("\n").data)) e) ∧
      applyHunk true (("\n").data) (some defaultFuzzy) true 0
          (pySplitlinesKeep (("a\nb\nc\n").data))
          (("@@ -1,3 +1,3 @@\n").data)
          (pySplitlinesKeep ((" a\n-b\n+B\n c\n").data)) =
        .ok (spliceAt (pySplitlinesKeep (("a\nb\nc\n").data)) j
          (hunkSearchLines (pySplitlinesKeep ((" a\n-b\n+B\n c\n").data))).length
          (hunkInsertLines (pySplitlinesKeep ((" a\n-b\n+B\n c\n").data)) (("\n").data))) :=
  applyHunk_exact_first _ _ _ _ _ _ _ 1 (by decide) (by decide) ⟨0, by decide⟩

/- ------------------------------------------------------------------ -/
/- Claim C2: idempotence.  The unrestricted claim is false (see the
   pure-addition counterexample above); the amended claim holds for a
   single-hunk diff with a nonempty search block over LF-only texts,
   when the search block no longer matches the patched result: the
   second run detects the hunk as already applied and changes nothing. -/
/- ------------------------------------------------------------------ -/

/-- Lines containing no Python line-boundary character. -/
def noBreakChars (l : Str) : Prop := ∀ c ∈ l, isLineBreak c = false

def TermLine (l : Str) : Prop := ∃ b, l = b ++ ['\n'] ∧ noBreakChars b

def BareLine (l : Str) : Prop := l ≠ [] ∧ noBreakChars l

def NiceLines : List Str → Prop
  | [] => True
  | [l] => TermLine l ∨ BareLine l
  | l :: l2 :: rest => TermLine l ∧ NiceLines (l2 :: rest)

abbrev onlyLF (s : Str) : Prop := ∀ c ∈ s, isLineBreak c = true → c = '\n'

theorem NiceLines_cons {x : Str} {L : List Str} (hx : TermLine x) (hL : NiceLines L) :
    NiceLines (x :: L) := by
  cases L with
  | nil => exact Or.inl hx
  | cons y ys => exact ⟨hx, hL⟩

theorem NiceLines_cons_elim {x : Str} {L : List Str} (h : NiceLines (x :: L)) :
    (TermLine x ∨ BareLine x) ∧ NiceLines L := by
  cases L with
  | nil => exact ⟨h, trivial⟩
  | cons y ys => exact ⟨Or.inl h.1, h.2⟩

theorem NiceLines_cons_ne {x : Str} {L : List Str} (h : NiceLines (x :: L))
    (hne : L ≠ []) : TermLine x ∧ NiceLines L := by
  cases L with
  | nil => exact absurd rfl hne
  | cons y ys => exact h

theorem NiceLines_drop : ∀ (k : Nat) (L : List Str), NiceLines L → NiceLines (L.drop k) := by
  intro k
  induction k with
  | zero => intro L h; simpa using h
  | succ n ih =>
    intro L h
    cases L with
    | nil => trivial
    | cons x xs =>
      simp only [List.drop_succ_cons]
      exact ih xs (NiceLines_cons_elim h).2

theorem NiceLines_mem : ∀ (L : List Str), NiceLines L → ∀ l ∈ L, TermLine l ∨ BareLine l := by
  intro L
  induction L with
  | nil => intro _ l hl; simp at hl
  | cons x xs ih =>
    intro h l hl
    rcases List.mem_cons.mp hl with h1 | h2
    · subst h1; exact (NiceLines_cons_elim h).1
    · exact ih (NiceLines_cons_elim h).2 l h2

theorem onlyLF_joinAll : ∀ (L : List Str), NiceLines L → onlyLF (joinAll L) := by
  intro L
  induction L with
  | nil => intro _ c hc; simp [joinAll] at hc
  | cons x xs ih =>
    intro h c hc hbr
    have hx := (NiceLines_cons_elim h).1
    have hxs := ih (NiceLines_cons_elim h).2
    simp only [joinAll, List.flatten_cons, List.mem_append] at hc
    rcases hc with hcx | hcr
    · rcases hx with ⟨b, hb, hnb⟩ | ⟨_, hnb⟩
      · subst hb
        rcases List.mem_append.mp hcx with hcb | hcn
        · exact absurd hbr (by simp [hnb c hcb])
        · simpa using hcn
      · exact absurd hbr (by simp [hnb c hcx])
    · exact hxs c hcr hbr

theorem onlyLF_no_cr {s : Str} (h : onlyLF s) : ∀ c ∈ s, c ≠ '\r' := by
  intro c hc heq
  subst heq
  have := h '\r' hc (by decide)
  exact absurd this (by decide)

theorem splitKeepGo_nice : ∀ (n : Nat) (s acc : Str), s.length ≤ n → onlyLF s →
    noBreakChars acc.reverse → NiceLines (splitKeepGo acc s) := by
  intro n
  induction n with
  | zero =>
    intro s acc h hLF hacc
    have hs : s = [] := List.eq_nil_of_length_eq_zero (Nat.le_zero.mp h)
    subst hs
    by_cases he : acc.isEmpty
    · simp [splitKeepGo, he, NiceLines]
    · simp only [splitKeepGo, he, if_false]
      exact Or.inr ⟨by simpa [List.isEmpty_iff] using he, hacc⟩
  | succ n ih =>
    intro s acc h hLF hacc
    cases s with
    | nil =>
      by_cases he : acc.isEmpty
      · simp [splitKeepGo, he, NiceLines]
      · simp only [splitKeepGo, he, if_false]
        exact Or.inr ⟨by simpa [List.isEmpty_iff] using he, hacc⟩
    | cons c rest =>
      simp only [List.length_cons] at h
      have hcr : c ≠ '\r' := onlyLF_no_cr hLF c (by simp)
      have hLFr : onlyLF rest := fun x hx hb => hLF x (by simp [hx]) hb
      unfold splitKeepGo
      simp only [hcr, if_false]
      by_cases hb : isLineBreak c
      · have hcn : c = '\n' := hLF c (by simp) hb
        subst hcn
        simp only [hb, if_true]
        refine NiceLines_cons ⟨acc.reverse, rfl, hacc⟩ (ih rest [] (by omega) hLFr ?_)
        intro x hx; simp at hx
      · simp only [hb, Bool.false_eq_true, if_false]
        refine ih rest (c :: acc) (by omega) hLFr ?_
        intro x hx
        simp only [List.reverse_cons, List.mem_append, List.mem_singleton] at hx
        rcases hx with h1 | h2
        · exact hacc x h1
        · subst h2; exact Bool.not_eq_true _ ▸ (by simpa using hb)

theorem splitKeepGo_cons_nobreak (c : Char) (acc rest : Str)
    (hc : isLineBreak c = false) :
    splitKeepGo acc (c :: rest) = splitKeepGo (c :: acc) rest := by
  have hcr : c ≠ '\r' := fun h => by subst h; simp [isLineBreak] at hc
  conv_lhs => unfold splitKeepGo
  simp [hcr, hc]

theorem splitKeepGo_cons_lf (acc rest : Str) :
    splitKeepGo acc ('\n' :: rest) = (acc.reverse ++ ['\n']) :: splitKeepGo [] rest := by
  conv_lhs => unfold splitKeepGo
  have h1 : ('\n' : Char) ≠ '\r' := by decide
  simp [h1, isLineBreak]

theorem splitKeepGo_skip : ∀ (b : Str), noBreakChars b → ∀ (acc x : Str),
    splitKeepGo acc (b ++ x) = splitKeepGo (b.reverse ++ acc) x := by
  intro b
  induction b with
  | nil => intro _ acc x; simp
  | cons c b' ih =>
    intro hnb acc x
    have hc : isLineBreak c = false := hnb c (by simp)
    have hnb' : noBreakChars b' := fun y hy => hnb y (by simp [hy])
    rw [List.cons_append, splitKeepGo_cons_nobreak c acc _ hc, ih hnb' (c :: acc) x]
    simp

theorem NiceLines_split_join : ∀ (L : List Str), NiceLines L →
    pySplitlinesKeep (joinAll L) = L := by
  intro L
  induction L with
  | nil => intro _; rfl
  | cons l rest ih =>
    intro h
    obtain ⟨hl, hrest⟩ := NiceLines_cons_elim h
    cases rest with
    | nil =>
      rcases hl with ⟨b, hb, hnb⟩ | ⟨hne, hnb⟩
      · subst hb
        show splitKeepGo [] (joinAll [b ++ ['\n']]) = _
        have hj : joinAll [b ++ ['\n']] = b ++ ['\n'] := by simp [joinAll]
        rw [hj, splitKeepGo_skip b hnb [] (['\n']), splitKeepGo_cons_lf]
        simp [splitKeepGo]
      · show splitKeepGo [] (joinAll [l]) = _
        have hj : joinAll [l] = l ++ [] := by simp [joinAll]
        rw [hj, splitKeepGo_skip l hnb [] []]
        simp [splitKeepGo, List.isEmpty_iff, hne]
    | cons l2 rest2 =>
      have hterm : TermLine l := (NiceLines_cons_ne h (by simp)).1
      obtain ⟨b, hb, hnb⟩ := hterm
      subst hb
      show splitKeepGo [] ((b ++ ['\n']) ++ joinAll (l2 :: rest2)) = _
      rw [List.append_assoc, splitKeepGo_skip b hnb [], List.singleton_append,
        splitKeepGo_cons_lf]
      simp only [List.append_nil, List.reverse_reverse]
      have h2 := ih hrest
      simp only [pySplitlinesKeep] at h2
      rw [h2]

theorem NiceLines_append_terms : ∀ (ins : List Str), (∀ l ∈ ins, TermLine l) →
    ∀ (suf : List Str), NiceLines suf → NiceLines (ins ++ suf) := by
  intro ins
  induction ins with
  | nil => intro _ suf h; simpa using h
  | cons x xs ih =>
    intro hins suf h
    exact NiceLines_cons (hins x (by simp)) (ih (fun l hl => hins l (by simp [hl])) suf h)

theorem NiceLines_splice : ∀ (j : Nat) (L ins : List Str) (k : Nat), NiceLines L →
    (∀ l ∈ ins, TermLine l) → 1 ≤ k → j + k ≤ L.length →
    NiceLines (L.take j ++ ins ++ L.drop (j + k)) := by
  intro j
  induction j with
  | zero =>
    intro L ins k hL hins hk hlen
    simpa using NiceLines_append_terms ins hins (L.drop k) (NiceLines_drop k L hL)
  | succ n ih =>
    intro L ins k hL hins hk hlen
    cases L with
    | nil => simp at hlen
    | cons x xs =>
      have hxs : xs ≠ [] := by
        intro hx
        subst hx
        simp at hlen
        omega
      obtain ⟨hterm, hnice⟩ := NiceLines_cons_ne hL hxs
      have hlen2 : n + k ≤ xs.length := by simp at hlen; omega
      have h3 := NiceLines_cons hterm (ih xs ins k hnice hins hk hlen2)
      have harith : n + 1 + k = (n + k) + 1 := by omega
      simp only [List.take_succ_cons, harith, List.drop_succ_cons]
      exact h3

theorem pyRstripRN_nobreak {l : Str} (h : noBreakChars l) : pyRstripRN l = l := by
  unfold pyRstripRN
  cases hr : l.reverse with
  | nil =>
    simp [List.reverse_eq_nil_iff.mp hr]
  | cons c cs =>
    have hc : c ∈ l := by rw [← List.mem_reverse, hr]; simp
    have hb := h c hc
    have h1 : c ≠ '\n' := by intro he; subst he; simp [isLineBreak] at hb
    have h2 : c ≠ '\r' := by intro he; subst he; simp [isLineBreak] at hb
    have hcf : (c == '\r' || c == '\n') = false := by simp [h1, h2]
    rw [List.dropWhile_cons_of_neg (by simp [hcf])]
    rw [← hr, List.reverse_reverse]

theorem pyRstripRN_term {b : Str} (h : noBreakChars b) :
    pyRstripRN (b ++ ['\n']) = b := by
  have h0 : pyRstripRN (b ++ ['\n']) = pyRstripRN b := by
    unfold pyRstripRN
    rw [List.reverse_append]
    simp [List.dropWhile_cons]
  rw [h0, pyRstripRN_nobreak h]

theorem insert_line_term {l : Str} (hl : TermLine l ∨ BareLine l) :
    TermLine (pyRstripRN (List.drop 1 l) ++ ['\n']) := by
  rcases hl with ⟨b, hb, hnb⟩ | ⟨hne, hnb⟩
  · subst hb
    cases b with
    | nil =>
      refine ⟨[], ?_, fun c hc => by simp at hc⟩
      simp [pyRstripRN]
    | cons c b' =>
      have hnb' : noBreakChars b' := fun y hy => hnb y (by simp [hy])
      refine ⟨b', ?_, hnb'⟩
      simp only [List.cons_append, List.drop_succ_cons, List.drop_zero]
      rw [pyRstripRN_term hnb']
  · refine ⟨pyRstripRN (List.drop 1 l), rfl, ?_⟩
    have hnb' : noBreakChars (List.drop 1 l) := fun y hy => hnb y (List.mem_of_mem_drop hy)
    rw [pyRstripRN_nobreak hnb']
    exact hnb'

theorem countCRLF_no_cr : ∀ (s : Str), (∀ c ∈ s, c ≠ '\r') → countCRLF s = 0 := by
  intro s
  induction s with
  | nil => intro _; rfl
  | cons c rest ih =>
    intro h
    unfold countCRLF
    cases rest with
    | nil => rfl
    | cons d rest2 =>
      have hc : ¬(c = '\r' ∧ d = '\n') := by
        intro hx
        exact h c (by simp) hx.1
      simp only [hc, if_false]
      exact ih (fun x hx => h x (by simp [hx]))

theorem file_eol_lf {s : Str} (h : ∀ c ∈ s, c ≠ '\r') : file_eol s = ['\n'] := by
  unfold file_eol
  simp [countCRLF_no_cr s h]

theorem linesEqualN_refl (ign : Bool) : ∀ (a : List Str), linesEqualN ign a a = true := by
  intro a
  induction a with
  | nil => rfl
  | cons x xs ih => simp [linesEqualN, ih]

theorem exactNeedle_len (s : List Str) (eol : Str) :
    (exactNeedle s eol).length = s.length := by
  simp [exactNeedle]

theorem takeHunkBody_sub : ∀ (ls : List Str),
    (∀ l ∈ (takeHunkBody ls).1, l ∈ ls) ∧ (∀ l ∈ (takeHunkBody ls).2, l ∈ ls) := by
  intro ls
  induction ls with
  | nil => exact ⟨fun l hl => by simp [takeHunkBody] at hl,
      fun l hl => by simp [takeHunkBody] at hl⟩
  | cons x xs ih =>
    by_cases hx : startsW (("@@ ").data) x = true
    · refine ⟨fun l hl => ?_, fun l hl => ?_⟩
      · simp [takeHunkBody, hx] at hl
      · simp only [takeHunkBody, hx, if_true] at hl
        exact hl
    · refine ⟨fun l hl => ?_, fun l hl => ?_⟩
      · simp only [takeHunkBody, hx, Bool.false_eq_true, if_false, List.mem_cons] at hl
        rcases hl with h1 | h2
        · simp [h1]
        · simp [ih.1 l h2]
      · simp only [takeHunkBody, hx, Bool.false_eq_true, if_false] at hl
        simp [ih.2 l hl]

theorem hunkSplitF_body_sub : ∀ (fuel : Nat) (ls : List Str) (hdr : Str) (body : List Str),
    (hdr, body) ∈ hunkSplitF fuel ls → ∀ l ∈ body, l ∈ ls := by
  intro fuel
  induction fuel with
  | zero => intro ls hdr body h; simp [hunkSplitF] at h
  | succ n ih =>
    intro ls hdr body h
    cases ls with
    | nil => simp [hunkSplitF] at h
    | cons x xs =>
      unfold hunkSplitF at h
      by_cases hx : startsW (("@@ ").data) x = true
      · simp only [hx, if_true, List.mem_cons] at h
        rcases h with h1 | h2
        · have hb : body = (takeHunkBody xs).1 := (Prod.mk.injEq _ _ _ _).mp h1 |>.2
          subst hb
          intro l hl
          exact List.mem_cons_of_mem x ((takeHunkBody_sub xs).1 l hl)
        · intro l hl
          have := ih (takeHunkBody xs).2 hdr body h2 l hl
          exact List.mem_cons_of_mem x ((takeHunkBody_sub xs).2 l this)
      · simp only [hx, Bool.false_eq_true, if_false] at h
        intro l hl
        exact List.mem_cons_of_mem x (ih xs hdr body h l hl)

theorem foldl_bestScan_mem (f : Nat → ℚ) :
    ∀ (l : List Nat) (init : ℚ × Option Nat) (j : Nat),
    (l.foldl (fun st x => if f x > st.1 then (f x, some x) else st) init).2 = some j →
    init.2 = some j ∨ j ∈ l := by
  intro l
  induction l with
  | nil => intro init j h; exact Or.inl h
  | cons x xs ih =>
    intro init j h
    simp only [List.foldl_cons] at h
    rcases ih _ j h with h1 | h2
    · by_cases hx : f x > init.1
      · simp [hx] at h1
        simp [h1]
      · simp [hx] at h1
        exact Or.inl h1
    · simp [h2]

theorem fuzzyBest_some_bound (ign : Bool) (buf s : List Str) (j : Nat)
    (h : (fuzzyBest ign buf s).2 = some j) :
    s.length ≤ buf.length ∧ j + s.length ≤ buf.length := by
  unfold fuzzyBest at h
  by_cases hfit : s.length ≤ buf.length
  · simp only [hfit, if_true] at h
    have := foldl_bestScan_mem
      (fun j => smScore (s.map (normLine ign)) (((buf.drop j).take s.length).map (normLine ign)))
      (List.range (buf.length - s.length + 1)) ((0 : ℚ), none) j h
    rcases this with h1 | h2
    · simp at h1
    · have := List.mem_range.mp h2
      omega
  · simp [hfit] at h

theorem spliceAt_window (OL ins : List Str) (j k : Nat)
    (hjk : j + k ≤ OL.length) :
    windowMatchesAt true (spliceAt OL j k ins) ins j := by
  have h1 : (OL.take j).length = j := by
    rw [List.length_take]
    omega
  have h2 : (spliceAt OL j k ins).drop j = ins ++ OL.drop (j + k) := by
    unfold spliceAt
    rw [List.append_assoc]
    have := List.drop_left (OL.take j) (ins ++ OL.drop (j + k))
    rw [h1] at this
    exact this
  unfold windowMatchesAt
  rw [h2, List.take_left]
  exact linesEqualN_refl true ins

/-- Claim C2 (amended): for a diff with a single hunk with a nonempty
search block, over original and diff texts whose only line-break character
is LF, if the first application succeeds and the patched result no longer
contains a window matching the hunk's search lines (up to line endings),
then applying the same diff to the result is a no-op: the hunk is detected
as already applied (its insert lines occur in the buffer) and skipped. -/
theorem apply_patch_second_noop (orig diff : Str) (thr : Option ℚ) (hdr : Str)
    (body : List Str) (r : Str)
    (hO : onlyLF orig) (hD : onlyLF diff)
    (hsplit : hunkSplit (pySplitlinesKeep diff) = [(hdr, body)])
    (hne : hunkSearchLines body ≠ [])
    (happ : apply_patch orig diff true thr true = .ok r)
    (hnoex : findExactWindow true (pySplitlinesKeep r)
      (exactNeedle (hunkSearchLines body) (['\n'])) = none) :
    apply_patch r diff true thr true = .ok r := by
  have heolO : file_eol orig = ['\n'] := file_eol_lf (onlyLF_no_cr hO)
  have hniceO : NiceLines (pySplitlinesKeep orig) :=
    splitKeepGo_nice orig.length orig [] (Nat.le_refl _) hO (fun c hc => by simp at hc)
  have hniceD : NiceLines (pySplitlinesKeep diff) :=
    splitKeepGo_nice diff.length diff [] (Nat.le_refl _) hD (fun c hc => by simp at hc)
  have hbodysub : ∀ l ∈ body, l ∈ pySplitlinesKeep diff := by
    have hmem : (hdr, body) ∈ hunkSplit (pySplitlinesKeep diff) := by
      rw [hsplit]; simp
    exact hunkSplitF_body_sub _ _ hdr body hmem
  have hinsT : ∀ l ∈ hunkInsertLines body (['\n']), TermLine l := by
    intro l hl
    simp only [hunkInsertLines, hunkInsertRaw, List.map_map, List.mem_map] at hl
    obtain ⟨x, hx, hxl⟩ := hl
    have hxB : x ∈ body := List.mem_of_mem_filter hx
    have hxT := NiceLines_mem _ hniceD x (hbodysub x hxB)
    rw [← hxl]
    exact insert_line_term hxT
  have hlenS : 1 ≤ (hunkSearchLines body).length := List.length_pos.mpr hne
  have hempty : (hunkSearchLines body).isEmpty = false := by
    simpa [List.isEmpty_iff] using hne
  -- extract the buffer produced by the (single) hunk
  unfold apply_patch at happ
  rw [hsplit, heolO] at happ
  simp only [applyHunksGo] at happ
  cases hA : applyHunk true (['\n']) thr true 0 (pySplitlinesKeep orig) hdr body with
  | error e => rw [hA] at happ; simp at happ
  | ok b =>
    rw [hA] at happ
    simp only [applyHunksGo] at happ
    have hrb : r = joinAll b := by
      have := happ
      simp only [Except.ok.injEq] at this
      exact this.symm
    -- dissect the successful hunk application
    cases hhdr : parseHunkHeader hdr with
    | none =>
      unfold applyHunk at hA
      rw [hhdr] at hA
      simp at hA
    | some os =>
      unfold applyHunk at hA
      rw [hhdr] at hA
      simp only [hempty, Bool.false_eq_true, if_false] at hA
      have hKey : NiceLines b ∧
          ∃ p, windowMatchesAt true b (hunkInsertLines body (['\n'])) p := by
        cases hEx : findExactWindow true (pySplitlinesKeep orig)
            (exactNeedle (hunkSearchLines body) (['\n'])) with
        | some j =>
          rw [hEx] at hA
          simp only [Except.ok.injEq] at hA
          obtain ⟨d, hd0, hdm, _⟩ := findExactGo_sound true _ _ 0 j hEx
          have hj : j = d := by omega
          subst hj
          have hlen : (exactNeedle (hunkSearchLines body) (['\n'])).length
              = (hunkSearchLines body).length := exactNeedle_len _ _
          have hbound : j + (hunkSearchLines body).length
              ≤ (pySplitlinesKeep orig).length := by
            have := linesEqualN_length true _ _ hdm
            simp only [List.length_take, List.length_drop, hlen] at this
            omega
          rw [← hA]
          constructor
          · exact NiceLines_splice j _ _ _ hniceO hinsT hlenS hbound
          · exact ⟨j, spliceAt_window _ _ j _ hbound⟩
        | none =>
          rw [hEx] at hA
          simp only [if_true] at hA
          cases hAA : findExactWindow true (pySplitlinesKeep orig)
              (hunkInsertLines body (['\n'])) with
          | some p =>
            rw [hAA] at hA
            simp only [Except.ok.injEq] at hA
            obtain ⟨d, hd0, hdm, _⟩ := findExactGo_sound true _ _ 0 p hAA
            rw [← hA]
            exact ⟨hniceO, d, hdm⟩
          | none =>
            rw [hAA] at hA
            cases thr with
            | none => simp at hA
            | some t =>
              cases hFz : (fuzzyBest true (pySplitlinesKeep orig)
                  (hunkSearchLines body)).2 with
              | none => rw [hFz] at hA; simp at hA
              | some j =>
                rw [hFz] at hA
                by_cases hge : (fuzzyBest true (pySplitlinesKeep orig)
                    (hunkSearchLines body)).1 ≥ t
                · simp only [hge, if_true, Except.ok.injEq] at hA
                  have hbound := (fuzzyBest_some_bound true _ _ j hFz).2
                  rw [← hA]
                  constructor
                  · exact NiceLines_splice j _ _ _ hniceO hinsT hlenS hbound
                  · exact ⟨j, spliceAt_window _ _ j _ hbound⟩
                · simp [hge] at hA
      obtain ⟨hniceB, p, hp⟩ := hKey
      have hsplitR : pySplitlinesKeep r = b := by
        rw [hrb]; exact NiceLines_split_join b hniceB
      have honlyR : onlyLF r := by rw [hrb]; exact onlyLF_joinAll b hniceB
      have heolR : file_eol r = ['\n'] := file_eol_lf (onlyLF_no_cr honlyR)
      have hnoexB : findExactWindow true b
          (exactNeedle (hunkSearchLines body) (['\n'])) = none := by
        rw [← hsplitR]; exact hnoex
      have hsome := findExactGo_complete true (hunkInsertLines body (['\n'])) b 0 p hp
      rw [Option.isSome_iff_exists] at hsome
      obtain ⟨q, hq⟩ := hsome
      have hstep : applyHunk true (['\n']) thr true 0 b hdr body = .ok b := by
        unfold applyHunk
        rw [hhdr]
        simp only [hempty, Bool.false_eq_true, if_false]
        rw [hnoexB]
        simp only [if_true]
        rw [show findExactWindow true b (hunkInsertLines body (['\n'])) = some q from hq]
      unfold apply_patch
      rw [hsplit, heolR, hsplitR]
      simp only [applyHunksGo]
      rw [hstep]
      simp only [applyHunksGo]
      rw [hrb]

/-- Witness for the amended C2 at the three-line scenario: the second
application of the hunk to "a\nB\nc\n" returns it unchanged. -/
theorem apply_patch_second_noop_witness :
    apply_patch (("a\nB\nc\n").data) (("@@ -1,3 +1,3 @@\n a\n-b\n+B\n c\n").data)
      true (some defaultFuzzy) true = .ok (("a\nB\nc\n").data) :=
  apply_patch_second_noop (("a\nb\nc\n").data) (("@@ -1,3 +1,3 @@\n a\n-b\n+B\n c\n").data)
    (some defaultFuzzy) (("@@ -1,3 +1,3 @@\n").data)
    ([(" a\n").data, ("-b\n").data, ("+B\n").data, (" c\n").data])
    (("a\nB\nc\n").data)
    (by decide) (by decide) rfl (by decide) rfl rfl

/- ------------------------------------------------------------------ -/
/- Claim C5: path safety (is_safe_path)                                -/
/- ------------------------------------------------------------------ -/

/-- Python s.split(sep) for a one-character separator, keeping empties. -/
def pySplitOnGo (sep : Char) (acc : Str) : Str → List Str
  | [] => [acc.reverse]
  | c :: rest =>
    if c = sep then acc.reverse :: pySplitOnGo sep [] rest
    else pySplitOnGo sep (c :: acc) rest

def pySplitOn (sep : Char) (s : Str) : List Str := pySplitOnGo sep [] s

/-- posixpath.normpath: drop empty and '.' components, collapse a
component followed by '..' (keeping leading '..'s of relative paths),
preserve one or two initial slashes. -/
def posixNormpath (p : Str) : Str :=
  if p = [] then ['.']
  else
    let initialSlashes : Nat :=
      if startsW (("/").data) p then
        (if startsW (("//").data) p ∧ ¬ startsW (("///").data) p then 2 else 1)
      else 0
    let comps := pySplitOn '/' p
    let newComps := comps.foldl
      (fun acc comp =>
        if comp = [] ∨ comp = ['.'] then acc
        else if comp ≠ ("..").data ∨ (initialSlashes = 0 ∧ acc = []) ∨
            (acc ≠ [] ∧ acc.getLast? = some (("..").data)) then acc ++ [comp]
        else if acc ≠ [] then acc.dropLast
        else acc) []
    let path := List.intercalate (("/").data) newComps
    let path2 := List.replicate initialSlashes '/' ++ path
    if path2 = [] then ['.'] else path2

/-- posixpath.isabs. -/
def pyIsAbs (s : Str) : Bool := startsW (("/").data) s

/-- The backslash-to-slash normalization of is_safe_path. -/
def bsToSlash (s : Str) : Str := s.map (fun c => if c = '\\' then '/' else c)

/-- is_safe_path (source lines 132-134). -/
def is_safe_path (p : Str) : Bool :=
  let normalized := bsToSlash (posixNormpath p)
  !(pyIsAbs normalized || startsW (("../").data) normalized ||
    (pySplitOn '/' normalized).contains (("..").data))

/-- Claim C5 (amended): is_safe_path rejects every path whose normalized
form (os.path.normpath, backslashes replaced by slashes) is absolute or
contains a '..' segment — in particular '../secret' and '/etc/passwd' —
and accepts 'src/app.py'.  (Not every path with a literal '..' segment is
rejected, since normpath collapses interior 'x/..' pairs first.) -/
theorem is_safe_path_spec :
    (∀ p : Str, pyIsAbs (bsToSlash (posixNormpath p)) = true →
      is_safe_path p = false) ∧
    (∀ p : Str, (("..").data) ∈ pySplitOn '/' (bsToSlash (posixNormpath p)) →
      is_safe_path p = false) ∧
    is_safe_path (("../secret").data) = false ∧
    is_safe_path (("/etc/passwd").data) = false ∧
    is_safe_path (("src/app.py").data) = true := by
  refine ⟨?_, ?_, rfl, rfl, rfl⟩
  · intro p h
    simp [is_safe_path, h]
  · intro p h
    have hc : (pySplitOn '/' (bsToSlash (posixNormpath p))).contains (("..").data)
        = true := by
      simpa using h
    simp [is_safe_path, hc]
    intro _ _
    simpa using h

/-- Witness for C5: a path that climbs above the root even after
normalization is rejected through the '..'-segment test. -/
theorem is_safe_path_spec_witness : is_safe_path (("a/../../b").data) = false :=
  is_safe_path_spec.2.1 (("a/../../b").data) (by decide)

/-- Counterexample to claim C5 as stated: 'a/../b' contains a '..'
segment, yet is_safe_path accepts it because normpath collapses the
interior 'a/..' pair before the check. -/
theorem is_safe_path_dotdot_cex :
    (("..").data) ∈ pySplitOn '/' (("a/../b").data) ∧
    is_safe_path (("a/../b").data) = true :=
  ⟨by decide, rfl⟩

/- ------------------------------------------------------------------ -/
/- Claim C9: the executor's delete loop                                -/
/- ------------------------------------------------------------------ -/

/-- Kind of a filesystem entry (symlink / regular file / directory /
anything else, e.g. a device). -/
inductive EntryKind where
  | file
  | dir
  | link
  | other
deriving DecidableEq

/-- A filesystem as a finite list of (path, kind) entries. -/
structure FS where
  entries : List (Str × EntryKind)
deriving DecidableEq

/-- The per-category counters of the executor. -/
structure ExecCounts where
  renamed : Nat
  deleted : Nat
  created : Nat
  patched : Nat
  binCount : Nat
  errors : Nat
deriving DecidableEq

/-- Kind of the entry at a path, if any. -/
def fsKind (fs : FS) (p : Str) : Option EntryKind :=
  (fs.entries.find? (fun e => e.1 == p)).map (fun e => e.2)

/-- os.path.exists. -/
def os_path_exists (fs : FS) (p : Str) : Bool := (fsKind fs p).isSome

/-- os.path.islink. -/
def os_path_islink (fs : FS) (p : Str) : Bool := fsKind fs p == some .link

/-- os.path.isfile. -/
def os_path_isfile (fs : FS) (p : Str) : Bool := fsKind fs p == some .file

/-- os.path.isdir. -/
def os_path_isdir (fs : FS) (p : Str) : Bool := fsKind fs p == some .dir

/-- os.remove: drop the entry at the path. -/
def os_remove (fs : FS) (p : Str) : FS :=
  ⟨fs.entries.filter (fun e => !(e.1 == p))⟩

/-- shutil.rmtree: drop the directory and everything below it. -/
def shutil_rmtree (fs : FS) (p : Str) : FS :=
  ⟨fs.entries.filter (fun e => !(e.1 == p || startsW (p ++ ("/").data) e.1))⟩

/-- posixpath.join for two components. -/
def os_path_join (a b : Str) : Str :=
  if startsW (("/").data) b then b
  else if a = [] ∨ a.getLast? = some '/' then a ++ b
  else a ++ ("/").data ++ b

/-- The deleted counter incremented, all else unchanged. -/
def incDeleted (c : ExecCounts) : ExecCounts :=
  ⟨c.renamed, c.deleted + 1, c.created, c.patched, c.binCount, c.errors⟩

/-- Body of the executor's deletion loop (source lines 483-502): join the
target directory with the normalized operation path; a missing path is
only reported as skipped; links and files are removed, directories
removed recursively, anything else skipped; every branch increments the
deleted counter and none increments the error counter. -/
def deleteStep (target : Str) (st : FS × ExecCounts) (opPath : Str) :
    FS × ExecCounts :=
  let fs := st.1
  let c := st.2
  let path := os_path_join target (posixNormpath opPath)
  if os_path_exists fs path then
    if os_path_islink fs path || os_path_isfile fs path then
      (os_remove fs path, incDeleted c)
    else if os_path_isdir fs path then
      (shutil_rmtree fs path, incDeleted c)
    else
      (fs, incDeleted c)
  else
    (fs, incDeleted c)

/-- The executor's deletion loop over the categorized delete operations. -/
def execDeletions (target : Str) (st : FS × ExecCounts) (ops : List Str) :
    FS × ExecCounts :=
  ops.foldl (deleteStep target) st

/-- Claim C9: a delete operation whose target path does not exist is
counted as a success — the deleted counter is incremented, the error
counter is untouched and the filesystem is left unchanged. -/
theorem deleteStep_missing_is_success (target : Str) (fs : FS) (c : ExecCounts)
    (p : Str)
    (h : os_path_exists fs (os_path_join target (posixNormpath p)) = false) :
    deleteStep target (fs, c) p = (fs, incDeleted c) ∧
    (incDeleted c).deleted = c.deleted + 1 ∧
    (incDeleted c).errors = c.errors := by
  refine ⟨?_, rfl, rfl⟩
  unfold deleteStep
  simp [h]

/-- Witness for C9 on an empty filesystem. -/
theorem deleteStep_missing_is_success_witness :
    deleteStep (("proj").data) (⟨[]⟩, ⟨0, 0, 0, 0, 0, 0⟩) (("x.txt").data)
      = (⟨[]⟩, incDeleted ⟨0, 0, 0, 0, 0, 0⟩) ∧
    (incDeleted (⟨0, 0, 0, 0, 0, 0⟩ : ExecCounts)).deleted = 0 + 1 ∧
    (incDeleted (⟨0, 0, 0, 0, 0, 0⟩ : ExecCounts)).errors = 0 :=
  deleteStep_missing_is_success (("proj").data) ⟨[]⟩ ⟨0, 0, 0, 0, 0, 0⟩
    (("x.txt").data) (by decide)

/- ------------------------------------------------------------------ -/
/- Claim C6: parse_unified_diff block classification                   -/
/- ------------------------------------------------------------------ -/

/-- A parsed per-file diff operation. -/
inductive DiffOp where
  | delete (path : Str)
  | patch (path : Str) (isNew : Bool) (diff : Str)
deriving DecidableEq

/-- The part of a string before the first occurrence of a character
(Python s.split(c)[0]). -/
def takeUntilChar (c : Char) (s : Str) : Str := s.takeWhile (fun x => !(x == c))

/-- _parse_header_path: strip the four-character header prefix and outer
whitespace, take the token up to the first tab or space, drop a git-style
a/ b/ (or backslash) prefix, and normalize separators (os.sep = '/'). -/
def parse_header_path (line : Str) : Str × Str :=
  let rest := pyStrip (line.drop 4)
  let token := takeUntilChar ' ' (takeUntilChar '\t' rest)
  let token :=
    if startsW (("a/").data) token ∨ startsW (("b/").data) token ∨
        startsW (("a\\").data) token ∨ startsW (("b\\").data) token then
      token.drop 2
    else token
  (token, bsToSlash token)

/-- Python s.lower() (ASCII case mapping suffices for the null-device
spellings compared here). -/
def pyLower (s : Str) : Str := s.map Char.toLower

/-- _is_null_path: the token spells the null device ('/dev/null' or
'nul', case-insensitive). -/
def is_null_path (raw : Str) : Bool :=
  pyLower raw == ("/dev/null").data || pyLower raw == ("nul").data

/-- State of the block-splitting loop of parse_unified_diff. -/
structure BlockState where
  blocks : List Str
  cur : List Str
  started : Bool

/-- One step of the block-splitting loop: a '--- ' line begins a new
block. -/
def blockStep (st : BlockState) (ln : Str) : BlockState :=
  if startsW (("--- ").data) ln then
    if st.started ∧ st.cur ≠ [] then ⟨st.blocks ++ [joinNL st.cur], [ln], true⟩
    else ⟨st.blocks, [ln], true⟩
  else ⟨st.blocks, st.cur ++ [ln], st.started⟩

/-- Split the (post-preamble) diff lines into file blocks. -/
def buildBlocks (lines : List Str) : List Str :=
  let st := lines.foldl blockStep ⟨[], [], false⟩
  if st.cur ≠ [] then st.blocks ++ [joinNL st.cur] else st.blocks

/-- Per-block classification (source lines 183-213): too-short and
malformed-header blocks are errors; a null destination is a delete of the
source; a null source is a creation via patch; otherwise a modify. -/
def classifyBlock (block : Str) : Except Str DiffOp :=
  match pySplitlinesDrop block with
  | fromH :: toH :: rest =>
    if !(startsW (("--- ").data) fromH) || !(startsW (("+++ ").data) toH) then
      .error (("Malformed diff header:\n").data ++ block.take 200)
    else
      let fp := parse_header_path fromH
      let tp := parse_header_path toH
      let diffBody := joinNL rest
      if is_null_path tp.1 then .ok (.delete fp.2)
      else if is_null_path fp.1 then .ok (.patch tp.2 true diffBody)
      else .ok (.patch tp.2 false diffBody)
  | _ => .error (("Invalid diff block (too short): ").data ++ block.take 200)

/-- parse_unified_diff: drop everything before the first '--- ' line,
split into blocks, classify each block, collecting operations and
errors. -/
def parse_unified_diff (diff_content : Str) : List DiffOp × List Str :=
  let lines := pySplitlinesDrop diff_content
  match lines.findIdx? (fun l => startsW (("--- ").data) l) with
  | none => ([], [("No unified diff headers ('--- ') found.").data])
  | some first =>
    let blocks := buildBlocks (lines.drop first)
    blocks.foldl
      (fun (st : List DiffOp × List Str) block =>
        match classifyBlock block with
        | .ok op => (st.1 ++ [op], st.2)
        | .error e => (st.1, st.2 ++ [e]))
      ([], [])

/-- One scanning step over a non-break character. -/
theorem splitDropGo_cons_nobreak (c : Char) (acc rest : Str)
    (hc : isLineBreak c = false) :
    splitDropGo acc (c :: rest) = splitDropGo (c :: acc) rest := by
  have hcr : c ≠ '\r' := fun h => by subst h; simp [isLineBreak] at hc
  conv_lhs => unfold splitDropGo
  simp [hcr, hc]

/-- One scanning step over an LF. -/
theorem splitDropGo_cons_lf (acc rest : Str) :
    splitDropGo acc ('\n' :: rest) = acc.reverse :: splitDropGo [] rest := by
  conv_lhs => unfold splitDropGo
  have h1 : ('\n' : Char) ≠ '\r' := by decide
  simp [h1, isLineBreak]

/-- The scan walks over a break-free prefix accumulating it. -/
theorem splitDropGo_skip : ∀ (b : Str), (∀ c ∈ b, isLineBreak c = false) →
    ∀ (acc x : Str), splitDropGo acc (b ++ x) = splitDropGo (b.reverse ++ acc) x := by
  intro b
  induction b with
  | nil => intro _ acc x; simp
  | cons c b' ih =>
    intro hnb acc x
    have hc : isLineBreak c = false := hnb c (by simp)
    have hnb' : ∀ y ∈ b', isLineBreak y = false := fun y hy => hnb y (by simp [hy])
    rw [List.cons_append, splitDropGo_cons_nobreak c acc _ hc, ih hnb' (c :: acc) x]
    simp

/-- Rebuilding a "\n".join from break-free lines (the last one nonempty)
splits back to the same lines. -/
theorem splitDrop_joinNL : ∀ (ls : List Str),
    (∀ l ∈ ls, ∀ c ∈ l, isLineBreak c = false) →
    ls.getLast? ≠ some [] →
    pySplitlinesDrop (joinNL ls) = ls := by
  intro ls
  induction ls with
  | nil => intro _ _; rfl
  | cons l rest ih =>
    intro hnb hlast
    have hnbl : ∀ c ∈ l, isLineBreak c = false := hnb l (by simp)
    cases rest with
    | nil =>
      have hne : l ≠ [] := by
        intro he
        subst he
        simp at hlast
      show splitDropGo [] (joinNL [l]) = _
      have hj : joinNL [l] = l ++ [] := by simp [joinNL]
      rw [hj, splitDropGo_skip l hnbl [] []]
      simp [splitDropGo, List.isEmpty_iff, hne]
    | cons l2 rest2 =>
      have hj : joinNL (l :: l2 :: rest2) = l ++ '\n' :: joinNL (l2 :: rest2) := rfl
      show splitDropGo [] (joinNL (l :: l2 :: rest2)) = _
      rw [hj, splitDropGo_skip l hnbl [], splitDropGo_cons_lf]
      simp only [List.append_nil, List.reverse_reverse]
      have h2 := ih (fun x hx => hnb x (by simp [hx])) (by simpa using hlast)
      simp only [pySplitlinesDrop] at h2
      rw [h2]

/-- A '+++ ' header line is not a '--- ' line. -/
theorem startsW_plus_not_minus {s : Str} (h : startsW (("+++ ").data) s = true) :
    startsW (("--- ").data) s = false := by
  cases s with
  | nil => simp [startsW, List.isPrefixOf] at h
  | cons c cs =>
    simp only [startsW, List.isPrefixOf, Bool.and_eq_true, beq_iff_eq] at h ⊢
    rcases h with ⟨h1, _⟩
    subst h1
    simp

/-- The block loop appends every non-'--- ' line to the current block. -/
theorem blockFold_no_header : ∀ (rest : List Str) (blocks cur : List Str),
    (∀ l ∈ rest, startsW (("--- ").data) l = false) →
    rest.foldl blockStep ⟨blocks, cur, true⟩ = ⟨blocks, cur ++ rest, true⟩ := by
  intro rest
  induction rest with
  | nil => intro blocks cur _; simp
  | cons x xs ih =>
    intro blocks cur h
    have hx := h x (by simp)
    simp only [List.foldl_cons]
    rw [show blockStep ⟨blocks, cur, true⟩ x = ⟨blocks, cur ++ [x], true⟩ from by
      simp [blockStep, hx]]
    rw [ih blocks (cur ++ [x]) (fun l hl => h l (by simp [hl]))]
    simp

/-- A single well-formed file block is kept whole. -/
theorem buildBlocks_single (fromH toH : Str) (body : List Str)
    (hfrom : startsW (("--- ").data) fromH = true)
    (hto : startsW (("--- ").data) toH = false)
    (hbody : ∀ l ∈ body, startsW (("--- ").data) l = false) :
    buildBlocks (fromH :: toH :: body) = [joinNL (fromH :: toH :: body)] := by
  unfold buildBlocks
  simp only [List.foldl_cons]
  rw [show blockStep ⟨[], [], false⟩ fromH = ⟨[], [fromH], true⟩ from by
    simp [blockStep, hfrom]]
  rw [show blockStep ⟨[], [fromH], true⟩ toH = ⟨[], [fromH, toH], true⟩ from by
    simp [blockStep, hto]]
  rw [blockFold_no_header body [] [fromH, toH] hbody]
  simp

/-- Claim C6: for a well-formed file block (proper '--- '/'+++ ' headers,
break-free lines, no body line opening a new block), parse_unified_diff
yields exactly one operation, classified by the null-path sentinels: a
null destination deletes the source path; a null source creates the
destination via patch (is_new = true); otherwise it is a modify patch of
the destination path. -/
theorem parse_unified_diff_block_classification
    (fromH toH : Str) (body : List Str)
    (hfrom : startsW (("--- ").data) fromH = true)
    (hto : startsW (("+++ ").data) toH = true)
    (hnb : ∀ l ∈ fromH :: toH :: body, ∀ c ∈ l, isLineBreak c = false)
    (hbody : ∀ l ∈ body, startsW (("--- ").data) l = false)
    (hlastB : body.getLast? ≠ some []) :
    parse_unified_diff (joinNL (fromH :: toH :: body)) =
      ([if is_null_path (parse_header_path toH).1 then
          DiffOp.delete (parse_header_path fromH).2
        else if is_null_path (parse_header_path fromH).1 then
          DiffOp.patch (parse_header_path toH).2 true (joinNL body)
        else DiffOp.patch (parse_header_path toH).2 false (joinNL body)], []) := by
  have htoNe : toH ≠ [] := by
    intro h
    subst h
    simp [startsW, List.isPrefixOf] at hto
  have hlast : (fromH :: toH :: body).getLast? ≠ some [] := by
    cases body with
    | nil =>
      simp only [List.getLast?_cons_cons, List.getLast?_singleton]
      intro h
      exact htoNe (by simpa using h)
    | cons b bs =>
      simp only [List.getLast?_cons_cons]
      simpa using hlastB
  have hsplit := splitDrop_joinNL (fromH :: toH :: body) hnb hlast
  have hidx : (fromH :: toH :: body).findIdx?
      (fun l => startsW (("--- ").data) l) = some 0 := by
    simp [List.findIdx?_cons, hfrom]
  have hclass : classifyBlock (joinNL (fromH :: toH :: body)) =
      .ok (if is_null_path (parse_header_path toH).1 then
          DiffOp.delete (parse_header_path fromH).2
        else if is_null_path (parse_header_path fromH).1 then
          DiffOp.patch (parse_header_path toH).2 true (joinNL body)
        else DiffOp.patch (parse_header_path toH).2 false (joinNL body)) := by
    unfold classifyBlock
    rw [hsplit]
    simp only [hfrom, hto, Bool.not_true, Bool.or_self, if_false]
    simp only [Bool.false_eq_true, if_false]
    split_ifs <;> rfl
  unfold parse_unified_diff
  simp only [hsplit, hidx, List.drop_zero]
  rw [buildBlocks_single fromH toH body hfrom (startsW_plus_not_minus hto) hbody]
  simp only [List.foldl_cons, List.foldl_nil, hclass]
  simp

/-- Witness for C6: `--- /dev/null` with `+++ b/new.txt` classifies as a
creation via patch, not a modify. -/
theorem parse_unified_diff_block_classification_witness :
    parse_unified_diff (joinNL ([("--- /dev/null").data, ("+++ b/new.txt").data,
        ("@@ -0,0 +1 @@").data, ("+hi").data])) =
      ([DiffOp.patch (("new.txt").data) true (("@@ -0,0 +1 @@\n+hi").data)], []) :=
  parse_unified_diff_block_classification (("--- /dev/null").data)
    (("+++ b/new.txt").data) ([("@@ -0,0 +1 @@").data, ("+hi").data])
    (by decide) (by decide) (by decide) (by decide) (by decide)

/- ------------------------------------------------------------------ -/
/- Claims C3 and C8: parse_operations (directive parser)               -/
/- ------------------------------------------------------------------ -/

/-- The captured groups of one directive-pattern match. -/
inductive MatchData where
  | mfile (path body : Str)
  | mdelete (path : Str)
  | mrename (fromP toP : Str)
  | mpatch (content : Str)
  | mbinary (path enc content : Str)
deriving DecidableEq

/-- One regex match: start offset, end offset, captured data. -/
structure TMatch where
  mstart : Nat
  mstop : Nat
  dat : MatchData
deriving DecidableEq

/-- Greedy \s* followed by a non-whitespace literal: skip all
whitespace. -/
def wsSkip (s : Str) : Str := s.dropWhile pyIsSpace

/-- \s+ : at least one whitespace character, then maximal munch. -/
def wsSkip1 : Str → Option Str
  | [] => none
  | c :: t => if pyIsSpace c then some ((c :: t).dropWhile pyIsSpace) else none

/-- `([^"]+)"`: maximal nonempty run of non-quote characters and the
closing quote. -/
def quoteScan (s : Str) : Option (Str × Str) :=
  let q := s.takeWhile (fun c => !(c == '"'))
  if q.isEmpty then none
  else (eatLit (("\"").data) (s.drop q.length)).map (fun r => (q, r))

/-- Lazy `(.*?)]]>\s*CLOSE` scan: at each position first try to close
(shortest match wins), else take the character into the body;
backtracking past a failed close is the regex behaviour. -/
def cdataScan (closeTag : Str) : Str → Option (Str × Str)
  | [] => none
  | c :: t =>
    match (do
        let r1 ← eatLit (("]]>").data) (c :: t)
        eatLit closeTag (wsSkip r1)) with
    | some r => some ([], r)
    | none =>
      match cdataScan closeTag t with
      | some (b, r) => some (c :: b, r)
      | none => none

/-- Lazy `(.+?)">...` scan of FILE_BLOCK_PATTERN: the shortest nonempty
path such that the quote, CDATA intro, body and close tag follow. -/
def filePathScan : Str → Option (Str × Str × Str)
  | [] => none
  | c :: t =>
    match (do
        let r1 ← eatLit (("\">").data) t
        let r2 ← eatLit (("<![CDATA[").data) (wsSkip r1)
        cdataScan (("</file>").data) r2) with
    | some (body, rest) => some ([c], body, rest)
    | none =>
      match filePathScan t with
      | some p => some (c :: p.1, p.2.1, p.2.2)
      | none => none

/-- FILE_BLOCK_PATTERN anchored at the front of s; returns consumed
length and groups. -/
def tryMatchFile (s : Str) : Option (Nat × MatchData) := do
  let r1 ← eatLit (("<file path=\"").data) s
  let (p, body, rest) ← filePathScan r1
  pure (s.length - rest.length, .mfile p body)

/-- DELETE_TAG_PATTERN anchored at the front of s. -/
def tryMatchDelete (s : Str) : Option (Nat × MatchData) := do
  let r1 ← eatLit (("<delete").data) s
  let r2 ← wsSkip1 r1
  let r3 ← eatLit (("path=\"").data) r2
  let (p, r4) ← quoteScan r3
  let r5 ← eatLit (("/>").data) (wsSkip r4)
  pure (s.length - r5.length, .mdelete p)

/-- RENAME_TAG_PATTERN anchored at the front of s. -/
def tryMatchRename (s : Str) : Option (Nat × MatchData) := do
  let r1 ← eatLit (("<rename").data) s
  let r2 ← wsSkip1 r1
  let r3 ← eatLit (("from=\"").data) r2
  let (f, r4) ← quoteScan r3
  let r5 ← wsSkip1 r4
  let r6 ← eatLit (("to=\"").data) r5
  let (t, r7) ← quoteScan r6
  let r8 ← eatLit (("/>").data) (wsSkip r7)
  pure (s.length - r8.length, .mrename f t)

/-- PATCH_BLOCK_PATTERN anchored at the front of s. -/
def tryMatchPatch (s : Str) : Option (Nat × MatchData) := do
  let r1 ← eatLit (("<patch>").data) s
  let r2 ← eatLit (("<![CDATA[").data) (wsSkip r1)
  let (body, rest) ← cdataScan (("</patch>").data) r2
  pure (s.length - rest.length, .mpatch body)

/-- BINARY_BLOCK_PATTERN anchored at the front of s. -/
def tryMatchBinary (s : Str) : Option (Nat × MatchData) := do
  let r1 ← eatLit (("<binary").data) s
  let r2 ← wsSkip1 r1
  let r3 ← eatLit (("path=\"").data) r2
  let (p, r4) ← quoteScan r3
  let r5 ← wsSkip1 r4
  let r6 ← eatLit (("encoding=\"").data) r5
  let (e, r7) ← quoteScan r6
  let r8 ← eatLit ((">").data) r7
  let r9 ← eatLit (("<![CDATA[").data) (wsSkip r8)
  let (body, rest) ← cdataScan (("</binary>").data) r9
  pure (s.length - rest.length, .mbinary p e body)

/-- re.finditer: scan left to right, emitting non-overlapping matches and
resuming right after each; the fuel only bounds recursion depth and the
text length always suffices, since each step consumes a character. -/
def finditerF (tm : Str → Option (Nat × MatchData)) : Nat → Nat → Str → List TMatch
  | 0, _, _ => []
  | fuel + 1, pos, s =>
    match tm s with
    | some r => ⟨pos, pos + r.1, r.2⟩ :: finditerF tm fuel (pos + r.1) (s.drop r.1)
    | none =>
      match s with
      | [] => []
      | _ :: t => finditerF tm fuel (pos + 1) t

/-- All matches of one pattern over a text. -/
def finditerP (tm : Str → Option (Nat × MatchData)) (s : Str) : List TMatch :=
  finditerF tm s.length 0 s

/-- The combined match list of the five patterns, in the order the
patterns are tried (before sorting). -/
def allMatches (text : Str) : List TMatch :=
  finditerP tryMatchFile text ++ finditerP tryMatchDelete text ++
  finditerP tryMatchRename text ++ finditerP tryMatchPatch text ++
  finditerP tryMatchBinary text

/-- Stable insertion by start offset (new element goes after equal
keys). -/
def insByStart (m : TMatch) : List TMatch → List TMatch
  | [] => [m]
  | x :: xs => if m.mstart < x.mstart then m :: x :: xs else x :: insByStart m xs

/-- Python's stable list.sort(key=start). -/
def sortByStart (ms : List TMatch) : List TMatch :=
  ms.foldl (fun acc m => insByStart m acc) []

/-- A parsed directive operation. -/
inductive Operation where
  | create (path content : Str)
  | delete (path : Str)
  | rename (fromP toP : Str)
  | patchBlob (content : Str)
  | binary (path enc content : Str)
deriving DecidableEq

/-- An entry of the parse_errors list, by the branch that emitted it. -/
inductive ParseIssue where
  | warnUnrecognized (pos : Nat)
  | errFileEmptyPath (pos : Nat)
  | errDeleteEmptyPath (pos : Nat)
  | errRenameEmpty (pos : Nat)
  | errBinaryAttrs (pos : Nat)
  | errNoOps
deriving DecidableEq

/-- Which issues are mere warnings (unrecognized-text notices). -/
def isWarning : ParseIssue → Bool
  | .warnUnrecognized _ => true
  | _ => false

/-- re.sub(r'^\r?\n', '', body): at most one leading line break
removed. -/
def subLeadNL (s : Str) : Str :=
  if startsW (("\r\n").data) s then s.drop 2
  else if startsW (("\n").data) s then s.drop 1
  else s

/-- Python re `$`: matches at the end of the string or just before a
terminating newline; `r` is the text remaining after the candidate
match. -/
def isDollarRest (r : Str) : Bool := r == [] || r == [('\n' : Char)]

/-- re.sub(r'\r?\n$', '', body): left-to-right scan replacing every
non-overlapping match of \r?\n whose end satisfies `$`, resuming after
each match. -/
def subTrailNL : Str → Str
  | [] => []
  | c :: t =>
    if c = '\r' then
      match t with
      | [] => ['\r']
      | d :: t2 =>
        if d = '\n' then
          (if isDollarRest t2 then subTrailNL t2 else '\r' :: subTrailNL (d :: t2))
        else '\r' :: subTrailNL (d :: t2)
    else if c = '\n' then
      (if isDollarRest t then subTrailNL t else '\n' :: subTrailNL t)
    else c :: subTrailNL t

/-- The content transformation applied to a file directive CDATA body
(source lines 81-82). -/
def fileBlockContent (body : Str) : Str := subTrailNL (subLeadNL body)

/-- The body of the parse_operations match loop: warn about a
non-whitespace gap, then turn the match into an operation or an
error. -/
def procMatch (text : Str) (st : (List Operation × List ParseIssue) × Nat)
    (m : TMatch) : (List Operation × List ParseIssue) × Nat :=
  let ops := st.1.1
  let errs := st.1.2
  let lastEnd := st.2
  let gap := pyStrip ((text.drop lastEnd).take (m.mstart - lastEnd))
  let errs := if gap ≠ [] then errs ++ [ParseIssue.warnUnrecognized m.mstart] else errs
  match m.dat with
  | .mfile path body =>
    let p := pyStrip path
    if p ≠ [] then ((ops ++ [.create p (fileBlockContent body)], errs), m.mstop)
    else ((ops, errs ++ [.errFileEmptyPath m.mstart]), m.mstop)
  | .mdelete path =>
    let p := pyStrip path
    if p ≠ [] then ((ops ++ [.delete p], errs), m.mstop)
    else ((ops, errs ++ [.errDeleteEmptyPath m.mstart]), m.mstop)
  | .mrename f t =>
    let fp := pyStrip f
    let tp := pyStrip t
    if fp ≠ [] ∧ tp ≠ [] then ((ops ++ [.rename fp tp], errs), m.mstop)
    else ((ops, errs ++ [.errRenameEmpty m.mstart]), m.mstop)
  | .mpatch content => ((ops ++ [.patchBlob content], errs), m.mstop)
  | .mbinary path enc content =>
    let p := pyStrip path
    let e := pyStrip enc
    if p ≠ [] ∧ e ≠ [] then ((ops ++ [.binary p e (pyStrip content)], errs), m.mstop)
    else ((ops, errs ++ [.errBinaryAttrs m.mstart]), m.mstop)

/-- parse_operations: find all directive matches, sort them by start
offset, process them in order; an empty-or-whitespace input with no
operations is the hard failure. -/
def parse_operations (text : Str) : List Operation × List ParseIssue :=
  let ms := sortByStart (allMatches text)
  let res := ms.foldl (procMatch text) (([], []), 0)
  if res.1.1 = [] ∧ pyStrip text = [] then (res.1.1, res.1.2 ++ [ParseIssue.errNoOps])
  else (res.1.1, res.1.2)

/-- Formalization of the amended leading-strip wording: one optional
leading line break removed. -/
def leadStripSpec (s : Str) : Str :=
  if (("\r\n").data) <+: s then s.drop 2
  else if (("\n").data) <+: s then s.drop 1
  else s

/-- Formalization of the amended trailing-strip wording: a body ending in
two LFs loses both (plus a CR preceding them); otherwise one trailing
CRLF or LF is removed. -/
def trailStripSpec (s : Str) : Str :=
  if (("\n\n").data) <:+ s then
    (let t := s.take (s.length - 2)
     if (("\r").data) <:+ t then t.take (t.length - 1) else t)
  else if (("\r\n").data) <:+ s then s.take (s.length - 2)
  else if (("\n").data) <:+ s then s.take (s.length - 1)
  else s

/-- A suffix shorter than the tail ignores the head. -/
theorem suffix_cons_short {x t : Str} (c : Char) (h : x.length ≤ t.length) :
    x <:+ (c :: t) ↔ x <:+ t := by
  rw [List.suffix_cons_iff]
  constructor
  · rintro (h1 | h2)
    · subst h1
      simp at h
    · exact h2
  · exact Or.inr

/-- The leading strip agrees with its amended-claim description. -/
theorem subLeadNL_eq_spec (s : Str) : subLeadNL s = leadStripSpec s := by
  unfold subLeadNL leadStripSpec
  have h1 : startsW (("\r\n").data) s = true ↔ (("\r\n").data) <+: s := by
    simp [startsW, List.isPrefixOf_iff_prefix]
  have h2 : startsW (("\n").data) s = true ↔ (("\n").data) <+: s := by
    simp [startsW, List.isPrefixOf_iff_prefix]
  by_cases hc1 : (("\r\n").data) <+: s
  · simp [h1.mpr hc1, hc1]
  · by_cases hc2 : (("\n").data) <+: s
    · have : startsW (("\r\n").data) s = false := by
        rw [← Bool.not_eq_true, h1]; exact hc1
      simp [this, h2.mpr hc2, hc1, hc2]
    · have hb1 : startsW (("\r\n").data) s = false := by
        rw [← Bool.not_eq_true, h1]; exact hc1
      have hb2 : startsW (("\n").data) s = false := by
        rw [← Bool.not_eq_true, h2]; exact hc2
      simp [hb1, hb2, hc1, hc2]

/-- The trailing scan passes over a character when at least three more
follow. -/
theorem subTrailNL_cons_big {c : Char} {t : Str} (h : 3 ≤ t.length) :
    subTrailNL (c :: t) = c :: subTrailNL t := by
  have hd : isDollarRest t = false := by
    cases t with
    | nil => simp at h
    | cons a t2 =>
      cases t2 with
      | nil => simp at h
      | cons b t3 => simp [isDollarRest]
  by_cases hc1 : c = '\r'
  · subst hc1
    cases t with
    | nil => simp at h
    | cons d t2 =>
      conv_lhs => unfold subTrailNL
      by_cases hd2 : d = '\n'
      · subst hd2
        have h2 : isDollarRest t2 = false := by
          cases t2 with
          | nil => simp at h
          | cons b t3 =>
            cases t3 with
            | nil => simp at h
            | cons e t4 => simp [isDollarRest]
        simp [h2]
      · simp [hd2]
  · by_cases hc2 : c = '\n'
    · subst hc2
      conv_lhs => unfold subTrailNL
      simp [hd]
    · conv_lhs => unfold subTrailNL
      simp [hc1, hc2]

/-- The amended description likewise ignores such a head character. -/
theorem trailStripSpec_cons_big {c : Char} {t : Str} (h : 3 ≤ t.length) :
    trailStripSpec (c :: t) = c :: trailStripSpec t := by
  unfold trailStripSpec
  have e1 : (("\n\n").data) <:+ (c :: t) ↔ (("\n\n").data) <:+ t :=
    suffix_cons_short c (by simp; omega)
  have e2 : (("\r\n").data) <:+ (c :: t) ↔ (("\r\n").data) <:+ t :=
    suffix_cons_short c (by simp; omega)
  have e3 : (("\n").data) <:+ (c :: t) ↔ (("\n").data) <:+ t :=
    suffix_cons_short c (by simp; omega)
  have ht1 : (c :: t).length - 2 = (t.length - 2) + 1 := by simp; omega
  have ht2 : (c :: t).length - 1 = (t.length - 1) + 1 := by simp; omega
  by_cases hb1 : (("\n\n").data) <:+ t
  · simp only [e1, hb1, if_true, ht1, List.take_succ_cons]
    have e4 : (("\r").data) <:+ (c :: t.take (t.length - 2)) ↔
        (("\r").data) <:+ (t.take (t.length - 2)) := by
      refine suffix_cons_short c ?_
      simp [List.length_take]
      omega
    have ht3 : (c :: t.take (t.length - 2)).length - 1 =
        ((t.take (t.length - 2)).length - 1) + 1 := by
      simp [List.length_take]
      omega
    by_cases hb4 : (("\r").data) <:+ (t.take (t.length - 2))
    · simp only [e4, hb4, if_true, ht3, List.take_succ_cons]
    · simp only [e4, hb4, if_false]
  · by_cases hb2 : (("\r\n").data) <:+ t
    · simp only [e1, hb1, if_false, e2, hb2, if_true, ht1, List.take_succ_cons]
    · by_cases hb3 : (("\n").data) <:+ t
      · simp only [e1, hb1, if_false, e2, hb2, e3, hb3, if_true, ht2,
          List.take_succ_cons]
      · simp only [e1, hb1, if_false, e2, hb2, e3, hb3]

/-- Agreement of scan and description on all strings of length at most
three. -/
theorem subTrailNL_eq_spec_small : ∀ (s : Str), s.length ≤ 3 →
    subTrailNL s = trailStripSpec s := by
  intro s hlen
  match s with
  | [] => rfl
  | [a] =>
    by_cases h1 : a = '\n' <;> by_cases h2 : a = '\r' <;>
      simp_all [subTrailNL, trailStripSpec, isDollarRest, List.suffix_cons_iff,
        List.suffix_nil] <;>
      (try (split_ifs <;> (first | rfl | aesop)))
  | [a, b] =>
    by_cases h1 : b = '\n' <;> by_cases h2 : a = '\n' <;> by_cases h3 : a = '\r' <;>
      by_cases h4 : b = '\r' <;>
      simp_all [subTrailNL, trailStripSpec, isDollarRest, List.suffix_cons_iff,
        List.suffix_nil] <;>
      (try (split_ifs <;> (first | rfl | aesop)))
  | [a, b, d] =>
    by_cases h1 : d = '\n' <;> by_cases h2 : b = '\n' <;> by_cases h3 : b = '\r' <;>
      by_cases h4 : a = '\n' <;> by_cases h5 : a = '\r' <;> by_cases h6 : d = '\r' <;>
      simp_all [subTrailNL, trailStripSpec, isDollarRest, List.suffix_cons_iff,
        List.suffix_nil] <;>
      (try (split_ifs <;> (first | rfl | aesop)))

/-- Agreement of scan and description, by induction on length. -/
theorem subTrailNL_eq_spec_aux : ∀ (n : Nat) (s : Str), s.length ≤ n →
    subTrailNL s = trailStripSpec s := by
  intro n
  induction n with
  | zero =>
    intro s h
    have hs : s = [] := List.eq_nil_of_length_eq_zero (Nat.le_zero.mp h)
    subst hs
    rfl
  | succ n ih =>
    intro s h
    by_cases hs : s.length ≤ 3
    · exact subTrailNL_eq_spec_small s hs
    · cases s with
      | nil => simp at hs
      | cons c t =>
        have ht : 3 ≤ t.length := by simp at hs; omega
        rw [subTrailNL_cons_big ht, trailStripSpec_cons_big ht,
          ih t (by simp at h; omega)]

/-- The trailing strip agrees with its amended-claim description. -/
theorem subTrailNL_eq_spec (s : Str) : subTrailNL s = trailStripSpec s :=
  subTrailNL_eq_spec_aux s.length s (Nat.le_refl _)

/-- Claim C3 (amended): the Create content is the CDATA body with one
optional leading line break removed, and, at the end: a body ending in
two LFs loses both final line breaks (plus a CR directly before them),
while any other body loses one optional trailing CRLF or LF.  In
particular a body ending in two newlines does NOT keep its penultimate
newline. -/
theorem fileBlockContent_spec (body : Str) :
    fileBlockContent body = trailStripSpec (leadStripSpec body) := by
  unfold fileBlockContent
  rw [subLeadNL_eq_spec, subTrailNL_eq_spec]

/-- Every pattern starts with '<', so no match begins elsewhere. -/
theorem tryMatchFile_not_lt {c : Char} (t : Str) (h : c ≠ '<') :
    tryMatchFile (c :: t) = none := by
  unfold tryMatchFile
  simp [eatLit, List.isPrefixOf, h]
  intro he
  exact absurd he.symm h

theorem tryMatchDelete_not_lt {c : Char} (t : Str) (h : c ≠ '<') :
    tryMatchDelete (c :: t) = none := by
  unfold tryMatchDelete
  simp [eatLit, List.isPrefixOf, h]
  intro he
  exact absurd he.symm h

theorem tryMatchRename_not_lt {c : Char} (t : Str) (h : c ≠ '<') :
    tryMatchRename (c :: t) = none := by
  unfold tryMatchRename
  simp [eatLit, List.isPrefixOf, h]
  intro he
  exact absurd he.symm h

theorem tryMatchPatch_not_lt {c : Char} (t : Str) (h : c ≠ '<') :
    tryMatchPatch (c :: t) = none := by
  unfold tryMatchPatch
  simp [eatLit, List.isPrefixOf, h]
  intro he
  exact absurd he.symm h

theorem tryMatchBinary_not_lt {c : Char} (t : Str) (h : c ≠ '<') :
    tryMatchBinary (c :: t) = none := by
  unfold tryMatchBinary
  simp [eatLit, List.isPrefixOf, h]
  intro he
  exact absurd he.symm h

/-- One unfolding step of the scanner. -/
theorem finditerF_succ (tm : Str → Option (Nat × MatchData)) (n p : Nat) (s : Str) :
    finditerF tm (n + 1) p s =
      (match tm s with
      | some r => ⟨p, p + r.1, r.2⟩ :: finditerF tm n (p + r.1) (s.drop r.1)
      | none =>
        match s with
        | [] => []
        | _ :: t => finditerF tm n (p + 1) t) := rfl

/-- The scanner is position-generic: offsets shift uniformly. -/
theorem finditerF_pos_shift (tm : Str → Option (Nat × MatchData)) :
    ∀ (fuel p : Nat) (s : Str),
    finditerF tm fuel p s =
      (finditerF tm fuel 0 s).map (fun m => ⟨p + m.mstart, p + m.mstop, m.dat⟩) := by
  intro fuel
  induction fuel with
  | zero => intro p s; rfl
  | succ n ih =>
    intro p s
    rw [finditerF_succ tm n p s, finditerF_succ tm n 0 s]
    cases htm : tm s with
    | some r =>
      simp only [htm, Nat.zero_add]
      rw [ih (p + r.1), ih r.1]
      simp [List.map_map, Function.comp, Nat.add_assoc]
    | none =>
      simp only [htm]
      cases s with
      | nil => rfl
      | cons c t =>
        change finditerF tm n (p + 1) t =
          List.map _ (finditerF tm n (0 + 1) t)
        simp only [Nat.zero_add]
        rw [ih (p + 1), ih 1]
        simp [List.map_map, Function.comp, Nat.add_assoc]

/-- Prepending '<'-free text shifts every match by its length. -/
theorem finditerP_prepend (tm : Str → Option (Nat × MatchData))
    (hhead : ∀ (c : Char) (t : Str), c ≠ '<' → tm (c :: t) = none) :
    ∀ (prose s : Str), (∀ c ∈ prose, c ≠ '<') →
    finditerP tm (prose ++ s) =
      (finditerP tm s).map
        (fun m => ⟨prose.length + m.mstart, prose.length + m.mstop, m.dat⟩) := by
  intro prose
  induction prose with
  | nil =>
    intro s _
    simp [finditerP]
  | cons c p' ih =>
    intro s h
    have hc := h c (by simp)
    show finditerF tm ((c :: (p' ++ s)).length) 0 (c :: (p' ++ s)) = _
    rw [show (c :: (p' ++ s)).length = (p' ++ s).length + 1 from rfl,
      finditerF_succ tm (p' ++ s).length 0 (c :: (p' ++ s))]
    simp only [hhead c _ hc]
    rw [finditerF_pos_shift tm (p' ++ s).length 1 (p' ++ s)]
    have h2 := ih s (fun x hx => h x (by simp [hx]))
    simp only [finditerP] at h2
    rw [h2]
    simp [finditerP, List.map_map, Function.comp, Nat.add_assoc]
    intro a _
    omega

/-- The concrete file directive of the C8 scenario. -/
def fileDirX : Str := ("<file path=\"x.txt\"><![CDATA[hello]]></file>").data

theorem fileDirX_file : finditerP tryMatchFile fileDirX =
    [⟨0, 43, .mfile (("x.txt").data) (("hello").data)⟩] := rfl

theorem fileDirX_delete : finditerP tryMatchDelete fileDirX = [] := rfl

theorem fileDirX_rename : finditerP tryMatchRename fileDirX = [] := rfl

theorem fileDirX_patch : finditerP tryMatchPatch fileDirX = [] := rfl

theorem fileDirX_binary : finditerP tryMatchBinary fileDirX = [] := rfl

/-- Over prose ++ fileDirX the only match is the file directive, at
offset |prose|. -/
theorem allMatches_prose (prose : Str) (h : ∀ c ∈ prose, c ≠ '<') :
    allMatches (prose ++ fileDirX) =
      [⟨prose.length, prose.length + 43,
        .mfile (("x.txt").data) (("hello").data)⟩] := by
  unfold allMatches
  rw [finditerP_prepend tryMatchFile (fun _ t hc => tryMatchFile_not_lt t hc) prose fileDirX h,
    finditerP_prepend tryMatchDelete (fun _ t hc => tryMatchDelete_not_lt t hc) prose fileDirX h,
    finditerP_prepend tryMatchRename (fun _ t hc => tryMatchRename_not_lt t hc) prose fileDirX h,
    finditerP_prepend tryMatchPatch (fun _ t hc => tryMatchPatch_not_lt t hc) prose fileDirX h,
    finditerP_prepend tryMatchBinary (fun _ t hc => tryMatchBinary_not_lt t hc) prose fileDirX h,
    fileDirX_file, fileDirX_delete, fileDirX_rename, fileDirX_patch, fileDirX_binary]
  simp

/-- Non-whitespace prose before the directive yields exactly one warning
and one Create operation. -/
theorem parse_operations_prose_gap (prose : Str) (hlt : ∀ c ∈ prose, c ≠ '<')
    (hstrip : pyStrip prose ≠ []) :
    parse_operations (prose ++ fileDirX) =
      ([Operation.create (("x.txt").data) (("hello").data)],
        [ParseIssue.warnUnrecognized prose.length]) := by
  unfold parse_operations
  rw [allMatches_prose prose hlt]
  simp only [sortByStart, insByStart, List.foldl_cons, List.foldl_nil]
  unfold procMatch
  simp only [List.drop_zero, Nat.sub_zero, List.take_left]
  simp only [hstrip, if_true, ne_eq, not_false_eq_true]
  simp [fileBlockContent, subLeadNL, subTrailNL, pyStrip, pyIsSpace, startsW,
    List.isPrefixOf]

/-- Counterexample to claim C3 as stated: a CDATA body ending in two
newlines loses BOTH trailing newlines (re `$` lets the scan match both
before and at a final newline), so the penultimate newline is not kept:
the parsed content of body "x\n\n" is "x", not "x\n". -/
theorem parse_operations_two_trailing_newlines_cex :
    parse_operations (("<file path=\"x.txt\"><![CDATA[x\n\n]]></file>").data)
      = ([Operation.create (("x.txt").data) (("x").data)], []) ∧
    (("x").data : Str) ≠ ("x\n").data :=
  ⟨rfl, by decide⟩

/-- Claim C8: prose before a directive produces one warning (a warning,
never an error) and the directive still parses; trailing unparsed text
after the last directive produces no issue at all. -/
theorem parse_operations_prose_warning :
    (∀ prose : Str, (∀ c ∈ prose, c ≠ '<') → pyStrip prose ≠ [] →
      parse_operations (prose ++ fileDirX) =
        ([Operation.create (("x.txt").data) (("hello").data)],
          [ParseIssue.warnUnrecognized prose.length])) ∧
    parse_operations (fileDirX ++ ((" trailing notes").data)) =
      ([Operation.create (("x.txt").data) (("hello").data)], []) ∧
    (∀ pos : Nat, isWarning (ParseIssue.warnUnrecognized pos) = true) :=
  ⟨parse_operations_prose_gap, rfl, fun _ => rfl⟩

/-- Witness for C8 at a concrete prose prefix of length 18. -/
theorem parse_operations_prose_warning_witness :
    parse_operations ((("Here is the file:\n").data) ++ fileDirX) =
      ([Operation.create (("x.txt").data) (("hello").data)],
        [ParseIssue.warnUnrecognized 18]) :=
  parse_operations_prose_warning.1 (("Here is the file:\n").data)
    (by decide) (by decide)
